import Mathlib

/-!
Verification development for the memcached client connection core of nghttp2's
shrpx proxy (`src/shrpx_memcached_connection.cc`).

The embedding below models the connection as a pure state machine:
* byte buffers become `List Nat` (one `Nat` per byte, network order preserved);
* the two `std::deque`s of `unique_ptr<MemcachedRequest>` become Lean lists;
* each event-loop callback becomes one step of an explicit event relation;
* out-of-bounds deque accesses (undefined behaviour in the source) make a step
  return `none`, so runs only range over well-defined executions.

Requests are given a ghost identity `rid` so that callback invocations can be
counted; callbacks themselves are modelled as emitted observation records.
-/

namespace Shrpx

/-- Byte of the wire protocol, modelled as `Nat` (a received byte is `< 256`,
but none of the verified properties needs that bound). -/
abbrev Byte := Nat

/-- Request magic byte of the binary memcached protocol
(`MEMCACHED_REQ_MAGIC` in `shrpx_memcached_connection.h`, which is outside
`src/`; the fixed value 0x80 is the protocol's request magic). -/
def MEMCACHED_REQ_MAGIC : Byte := 0x80

/-- Response magic byte (`MEMCACHED_RES_MAGIC`, fixed value 0x81; distinct
from the request magic, as the spec requires). -/
def MEMCACHED_RES_MAGIC : Byte := 0x81

/-- Opcode of the GET operation (`MEMCACHED_OP_GET`). -/
def MEMCACHED_OP_GET : Nat := 0

/-- Opcode of the ADD operation (`MEMCACHED_OP_ADD`). -/
def MEMCACHED_OP_ADD : Nat := 2

/-- Platform scatter-gather limit `IOV_MAX` (system constant, 1024 on Linux). -/
def IOV_MAX : Nat := 1024

/-- Big-endian 16-bit store, `util::put_uint16be` (values above `2^16` are
truncated exactly as the C++ `uint16_t` conversion truncates them). -/
def put_uint16be (v : Nat) : List Byte :=
  [v / 256 % 256, v % 256]

/-- Big-endian 32-bit store, `util::put_uint32be`. -/
def put_uint32be (v : Nat) : List Byte :=
  [v / 16777216 % 256, v / 65536 % 256, v / 256 % 256, v % 256]

/-- Big-endian 16-bit load at offset `i`, `util::get_uint16`. -/
def get_uint16 (b : List Byte) (i : Nat) : Nat :=
  b.getD i 0 * 256 + b.getD (i + 1) 0

/-- Big-endian 32-bit load at offset `i`, `util::get_uint32`. -/
def get_uint32 (b : List Byte) (i : Nat) : Nat :=
  b.getD i 0 * 16777216 + b.getD (i + 1) 0 * 65536 +
    b.getD (i + 2) 0 * 256 + b.getD (i + 3) 0

/-- Big-endian 64-bit load at offset `i`, `util::get_uint64`. -/
def get_uint64 (b : List Byte) (i : Nat) : Nat :=
  get_uint32 b i * 4294967296 + get_uint32 b (i + 4)

/-- A `MemcachedRequest` (from `shrpx_memcached_request.h`): operation kind,
key, value, expiry, cancellation flag and callback.  `has_cb` models whether
`req->cb` is non-null; `rid` is a ghost identity used to count callback
invocations and never inspected by the modelled code paths. -/
structure MemcachedRequest where
  rid : Nat
  op : Nat
  key : List Byte
  value : List Byte
  expiry : Nat
  canceled : Bool
  has_cb : Bool
deriving DecidableEq

/-- `MemcachedConnection::serialized_size` (lines 479-487): GET is header
plus key; ADD (and the `default` label) is header, 8 extra bytes, key, value. -/
def serialized_size (req : MemcachedRequest) : Nat :=
  if req.op = MEMCACHED_OP_GET then 24 + req.key.length
  else 24 + 8 + req.key.length + req.value.length

/-- A `MemcachedSendbuf`: the still-unsent readable region of `headbuf`
(`pos..last`), the request's value (referenced, never copied, by the iovec
builder) and `send_value_left`.  `rid` replaces the raw back-pointer `req`. -/
structure MemcachedSendbuf where
  rid : Nat
  headbuf : List Byte
  value : List Byte
  send_value_left : Nat
deriving DecidableEq

/-- `MemcachedSendbuf::left()`: remaining header bytes plus remaining value
bytes. -/
def sendbufLeft (b : MemcachedSendbuf) : Nat :=
  b.headbuf.length + b.send_value_left

/-- `MemcachedConnection::make_request` (lines 489-515).  The 24-byte header
scratch area is zero-filled, then magic, opcode and the per-op fields are
poked in; `headbuf.write(24)` / `write(32)` publishes that many bytes, and the
key is appended to the header buffer.  For an opcode with no `case` label
nothing is published before the key, so the readable region is just the key
(the key copy starts at the buffer's begin).  The value is never copied:
only `send_value_left` records it. -/
def make_request (req : MemcachedRequest) : MemcachedSendbuf :=
  let head : List Byte :=
    if req.op = MEMCACHED_OP_GET then
      -- offsets 0-1: magic, op; 2-3: keylen; 4-7: extralen/reserved/status (0);
      -- 8-11: totalbody = keylen; 12-23: opaque and cas left zero
      [MEMCACHED_REQ_MAGIC, req.op] ++ put_uint16be req.key.length ++
        [0, 0, 0, 0] ++ put_uint32be req.key.length ++
        [0, 0, 0, 0, 0, 0, 0, 0, 0, 0, 0, 0]
    else if req.op = MEMCACHED_OP_ADD then
      -- same layout but extralen = 8, totalbody = 8 + keylen + valuelen,
      -- and the 8 extra bytes 24-31 carry flags (0) and the 32-bit expiry
      [MEMCACHED_REQ_MAGIC, req.op] ++ put_uint16be req.key.length ++
        [8, 0, 0, 0] ++ put_uint32be (8 + req.key.length + req.value.length) ++
        [0, 0, 0, 0, 0, 0, 0, 0, 0, 0, 0, 0] ++
        [0, 0, 0, 0] ++ put_uint32be req.expiry
    else []
  ⟨req.rid, head ++ req.key, req.value, req.value.length⟩

/-- Parse phase enumeration (`MEMCACHED_PARSE_HEADER24 / _EXTRA / _VALUE`);
zero-initialization of `parse_state_` yields `HEADER24`. -/
inductive ParsePhase
  | header24
  | extra
  | value
deriving DecidableEq

/-- `MemcachedParseState`: current phase, decoded header fields, remaining
byte count of the current phase, and the accumulated value bytes. -/
structure ParseState where
  state : ParsePhase
  op : Nat
  keylen : Nat
  extralen : Nat
  status_code : Nat
  totalbody : Nat
  cas : Nat
  read_left : Nat
  value : List Byte
deriving DecidableEq

/-- `parse_state_ = {}`: the zero-initialized parse state. -/
def ParseState.init : ParseState :=
  ⟨.header24, 0, 0, 0, 0, 0, 0, 0, []⟩

/-- A completed response frame as dispatched by `parse_packet`: the receive
queue entry it was correlated with, and the status code, value and CAS token
decoded from the wire. -/
structure Frame where
  req : MemcachedRequest
  status_code : Nat
  value : List Byte
  cas : Nat
deriving DecidableEq

/-- Result of one `parse_packet` call: final parse state, remaining receive
queue, bytes still buffered (`recvbuf_` contents after the call), frames
completed during the call, and whether the call returned `-1`.  On an error
return the caller immediately disconnects, discarding the parser state and
buffer, so the error result normalizes them to `ParseState.init` and `[]`. -/
structure ParseOut where
  ps : ParseState
  recvq : List MemcachedRequest
  buf : List Byte
  frames : List Frame
  err : Bool
deriving DecidableEq

/-- Header-complete step of `parse_packet` (lines 271-337): decode the 24-byte
header, run the five validations in source order, and enter the extra or value
phase.  Fields are updated on the incoming state exactly as the C++ assigns
`parse_state_.op/keylen/...`. -/
def parseHeader (ps : ParseState) (buf : List Byte) (req : MemcachedRequest) :
    Option ParseState :=
  let magic := buf.getD 0 0
  let op := buf.getD 1 0
  let keylen := get_uint16 buf 2
  let extralen := buf.getD 4 0
  let status_code := get_uint16 buf 6
  let totalbody := get_uint32 buf 8
  let cas := get_uint64 buf 16
  if magic ≠ MEMCACHED_RES_MAGIC then none
  else if req.op ≠ op then none
  else if keylen ≠ 0 then none
  else if totalbody > 16 * 1024 then none
  else if op = MEMCACHED_OP_GET ∧ status_code = 0 ∧ extralen = 0 then none
  else if totalbody < keylen + extralen then none
  else some { ps with
    op := op
    keylen := keylen
    extralen := extralen
    status_code := status_code
    totalbody := totalbody
    cas := cas
    state := if extralen ≠ 0 then .extra else .value
    read_left := if extralen ≠ 0 then extralen
                 else totalbody - keylen - extralen }

/-- One iteration of the `for (;;)` loop of `parse_packet` (lines 255-394);
`rec` is the continuation for the next iteration and `acc` accumulates the
frames completed so far.

The `value`-phase completion reads `recvq_.front()`; on an empty queue that
is an out-of-bounds deque access, unreachable because the header phase only
advances past `HEADER24` when the queue is non-empty — it is normalized to
the error result here. -/
def parseBody
    (rec : ParseState → List MemcachedRequest → List Byte → List Frame → ParseOut)
    (ps : ParseState) (recvq : List MemcachedRequest) (buf : List Byte)
    (acc : List Frame) : ParseOut :=
  match ps.state with
  | .header24 =>
    if buf.length < 24 then
      -- recvbuf_.drain_reset: unconsumed bytes stay buffered
      ⟨ps, recvq, buf, acc, false⟩
    else
      match recvq with
      | [] => ⟨ParseState.init, recvq, [], acc, true⟩
      | req :: _ =>
        match parseHeader ps buf req with
        | none => ⟨ParseState.init, recvq, [], acc, true⟩
        | some ps' => rec ps' recvq (buf.drop 24) acc
  | .extra =>
    let n := min buf.length ps.read_left
    if ps.read_left - n ≠ 0 then
      -- need more data: checkpoint read_left, recvbuf_.reset()
      ⟨{ ps with read_left := ps.read_left - n }, recvq, [], acc, false⟩
    else
      rec
        { ps with
          state := .value
          read_left := ps.totalbody - ps.keylen - ps.extralen }
        recvq (buf.drop n) acc
  | .value =>
    let n := min buf.length ps.read_left
    let v := ps.value ++ buf.take n
    if ps.read_left - n ≠ 0 then
      ⟨{ ps with value := v, read_left := ps.read_left - n }, recvq, [], acc, false⟩
    else
      match recvq with
      | [] => ⟨ParseState.init, recvq, [], acc, true⟩
      | req :: rest =>
        let acc' := acc ++ [⟨req, ps.status_code, v, ps.cas⟩]
        let buf' := buf.drop n
        -- `if (!busy && in == recvbuf_.last) break;` then recvbuf_.reset()
        if buf'.isEmpty then ⟨ParseState.init, rest, [], acc', false⟩
        else rec ParseState.init rest buf' acc'

/-- Fuel-indexed `parse_packet` loop: one unit of fuel per loop iteration.
Running out of fuel yields the normalized error result; `parse_packet` below
always supplies enough fuel. -/
def parseLoopF : Nat → ParseState → List MemcachedRequest → List Byte →
    List Frame → ParseOut
  | 0, _, recvq, _, acc => ⟨ParseState.init, recvq, [], acc, true⟩
  | fuel + 1, ps, recvq, buf, acc => parseBody (parseLoopF fuel) ps recvq buf acc

/-- Rank of a parse phase in the loop's termination measure. -/
def stateRank : ParsePhase → Nat
  | .header24 => 0
  | .value => 1
  | .extra => 2

/-- Fuel that always suffices for `parseLoopF` (strictly above the loop's
termination measure `3*|buf| + 2*|recvq| + rank`). -/
def parseFuel (_ps : ParseState) (recvq : List MemcachedRequest)
    (buf : List Byte) : Nat :=
  3 * buf.length + 2 * recvq.length + 3

/-- `MemcachedConnection::parse_packet` (lines 252-400). -/
def parse_packet (ps : ParseState) (recvq : List MemcachedRequest)
    (buf : List Byte) : ParseOut :=
  parseLoopF (parseFuel ps recvq buf) ps recvq buf []

/-- Receive-side connection state threaded through read events: parse state,
receive queue and buffered bytes. -/
structure RState where
  ps : ParseState
  recvq : List MemcachedRequest
  buf : List Byte
deriving DecidableEq

/-- One read event (`on_read` iteration, lines 231-247): append the bytes
read from the socket to `recvbuf_` and run `parse_packet`. -/
def feed (s : RState) (c : List Byte) : RState × List Frame × Bool :=
  let o := parse_packet s.ps s.recvq (s.buf ++ c)
  (⟨o.ps, o.recvq, o.buf⟩, o.frames, o.err)

/-- Feeding a non-empty sequence of chunks `c :: cs` across that many read
events.  A parse error disconnects the connection, so later chunks are no
longer processed. -/
def feedChunks (s : RState) (c : List Byte) (cs : List (List Byte)) :
    RState × List Frame × Bool :=
  match cs with
  | [] => feed s c
  | c' :: cs' =>
    match feed s c with
    | (s', fr, true) => (s', fr, true)
    | (s', fr, false) =>
      let r := feedChunks s' c' cs'
      (r.1, fr ++ r.2.1, r.2.2)

/-- Staging pass of `send_request` (lines 405-417): walk `sendq_` from the
front, skip canceled requests, and stage requests while the next serialized
size added to `sendsum_` stays at or under 1300; stop at the first request
that would exceed the cap. -/
def stage : List MemcachedRequest → List MemcachedSendbuf → Nat →
    List MemcachedSendbuf × Nat
  | [], bufv, sum => (bufv, sum)
  | req :: rest, bufv, sum =>
    if req.canceled then stage rest bufv sum
    else if serialized_size req + sum > 1300 then (bufv, sum)
    else stage rest (bufv ++ [make_request req])
      (sum + sendbufLeft (make_request req))

/-- Specification-level view of the requests selected by one staging pass
(proved equal to what `stage` appends in `stage_eq_stagedSel`). -/
def stagedSel : List MemcachedRequest → Nat → List MemcachedRequest
  | [], _ => []
  | req :: rest, sum =>
    if req.canceled then stagedSel rest sum
    else if serialized_size req + sum > 1300 then []
    else req :: stagedSel rest (sum + sendbufLeft (make_request req))

/-- The value-tail iovec base of a sendbuf entry:
`req->value.data() + req->value.size() - buf.send_value_left`. -/
def valueTail (b : MemcachedSendbuf) : List Byte :=
  b.value.drop (b.value.length - b.send_value_left)

/-- Scatter-gather vector construction of `send_request` (lines 425-441):
up to two iovecs per entry, stopping when `iovlen + 2` would exceed
`IOV_MAX`. -/
def buildIov : List MemcachedSendbuf → Nat → List (List Byte)
  | [], _ => []
  | b :: rest, iovlen =>
    if iovlen + 2 > IOV_MAX then []
    else
      let l1 : List (List Byte) := if b.headbuf.length ≠ 0 then [b.headbuf] else []
      let l2 : List (List Byte) := if b.send_value_left ≠ 0 then [valueTail b] else []
      l1 ++ l2 ++ buildIov rest (iovlen + l1.length + l2.length)

/-- Post-write drain loop of `send_request` (lines 453-474), fuel-indexed
(each iteration pops an element of `sendq_`, so `|sendq| + 1` fuel always
suffices).  Taking `front()` of an empty deque is undefined behaviour in the
source and yields `none` here.  The `assert(buf.req == req.get())` is compiled
out in release builds and hence not modelled as a check. -/
def drainF : Nat → Nat → List MemcachedSendbuf → List MemcachedRequest →
    List MemcachedRequest →
    Option (List MemcachedSendbuf × List MemcachedRequest × List MemcachedRequest)
  | 0, _, _, _, _ => none
  | _ + 1, 0, bufv, sendq, recvq => some (bufv, sendq, recvq)
  | fuel + 1, nwrite, bufv, sendq, recvq =>
    match bufv, sendq with
    | [], _ => none
    | _, [] => none
    | b :: brest, req :: qrest =>
      if req.canceled then
        -- canceled: dropped from sendq_, not moved to recvq_
        drainF fuel nwrite (b :: brest) qrest recvq
      else
        let n := min nwrite b.headbuf.length
        let b1 : MemcachedSendbuf := { b with headbuf := b.headbuf.drop n }
        let nw1 := nwrite - n
        let n2 := min nw1 b1.send_value_left
        let b2 : MemcachedSendbuf := { b1 with send_value_left := b1.send_value_left - n2 }
        let nw2 := nw1 - n2
        if b2.headbuf.length ≠ 0 ∨ b2.send_value_left ≠ 0 then
          -- entry not fully flushed: break
          some (b2 :: brest, req :: qrest, recvq)
        else
          drainF fuel nw2 brest qrest (recvq ++ [req])

/-- Connection state owned by `MemcachedConnection`: both queues, the pending
send buffers and their byte total, the parse state, the receive buffer and
the connected flag. -/
structure ConnState where
  sendq : List MemcachedRequest
  recvq : List MemcachedRequest
  sendbufv : List MemcachedSendbuf
  sendsum : Nat
  parse_state : ParseState
  recvbuf : List Byte
  connected : Bool
deriving DecidableEq

/-- State produced by the constructor (lines 88-93): everything empty, not
connected. -/
def ConnState.init : ConnState :=
  ⟨[], [], [], 0, ParseState.init, [], false⟩

/-- One `send_request` call (lines 402-477).  `nwrite_sock` is how many bytes
the non-blocking socket accepts this time (the `writev` result, clamped by
the total length of the submitted iovecs); `0` means the write blocked.
Returns the new state, the bytes that went out on the wire, and the rids
cleared without callback by the empty-batch `sendq_.clear()` (a ghost
observation).  `none` models the undefined deque accesses of the drain
loop. -/
def send_request (s : ConnState) (nwrite_sock : Nat) :
    Option (ConnState × List Byte × List Nat) :=
  let staged := if s.sendsum = 0 then stage s.sendq s.sendbufv s.sendsum
                else (s.sendbufv, s.sendsum)
  if s.sendsum = 0 ∧ staged.2 = 0 then
    -- lines 419-422: nothing staged, drop the whole send queue
    some ({ s with sendq := [], sendbufv := staged.1, sendsum := 0 },
      [], s.sendq.map (·.rid))
  else
    let iov := buildIov staged.1 0
    let nwrite := min nwrite_sock iov.flatten.length
    if nwrite = 0 then
      -- blocked write: rv = 1, retry on the next writable event
      some ({ s with sendbufv := staged.1, sendsum := staged.2 }, [], [])
    else
      match drainF (s.sendq.length + 1) nwrite staged.1 s.sendq s.recvq with
      | none => none
      | some (bufv', sendq', recvq') =>
        some ({ s with
                sendbufv := bufv'
                sendq := sendq'
                recvq := recvq'
                sendsum := staged.2 - nwrite },
          iov.flatten.take nwrite, [])

/-- Result delivered to a callback: either the generic connection error
`MemcachedResult(MEMCACHED_ERR_ERROR)` or a parsed status/value pair. -/
inductive MemcachedResultKind
  | connError
  | res (status_code : Nat) (value : List Byte)
deriving DecidableEq

/-- One callback invocation, as an observation record. -/
structure CB where
  rid : Nat
  result : MemcachedResultKind
deriving DecidableEq

/-- `clear_request` (lines 98-106): every request with a callback — the
canceled flag is not consulted — receives the generic error result, then the
queue is cleared. -/
def clear_request (q : List MemcachedRequest) : List CB :=
  (q.filter (·.has_cb)).map fun req => ⟨req.rid, .connError⟩

/-- `MemcachedConnection::disconnect` (lines 108-123): fail the receive
queue, then the send queue, clear the pending write batch, reset the parse
state, clear the connected flag and reset the receive buffer. -/
def disconnect (s : ConnState) : ConnState × List CB :=
  (ConnState.init, clear_request s.recvq ++ clear_request s.sendq)

/-- Dispatched callbacks of the frames completed by one `parse_packet` call
(lines 381-384): skipped when the request was canceled or has no callback. -/
def frameCallbacks (frames : List Frame) : List CB :=
  (frames.filter fun f => !f.req.canceled && f.req.has_cb).map
    fun f => ⟨f.req.rid, .res f.status_code f.value⟩

/-- Events delivered by the event loop (and the caller-facing operations);
each corresponds to one callback or one loop iteration in the source. -/
inductive Ev
  | add (req : MemcachedRequest)
  | cancel (rid : Nat)
  | connectOk
  | writable (nwrite : Nat)
  | readable (chunk : List Byte)
  | timeout
deriving DecidableEq

/-- Mark the request object with identity `rid` as canceled (the caller flips
`req->canceled` on the object, which lives in exactly one queue). -/
def cancelReq (rid : Nat) (q : List MemcachedRequest) : List MemcachedRequest :=
  q.map fun req => if req.rid = rid then { req with canceled := true } else req

/-- One event step.  Returns the successor state, the callbacks invoked
during the step, and the rids silently dropped by an empty-batch
`sendq_.clear()`.  `none` marks an execution that hits undefined behaviour
in the source. -/
def step (s : ConnState) : Ev → Option (ConnState × List CB × List Nat)
  | .add req => some ({ s with sendq := s.sendq ++ [req] }, [], [])
  | .cancel rid =>
    some ({ s with
            sendq := cancelReq rid s.sendq
            recvq := cancelReq rid s.recvq }, [], [])
  | .connectOk => some ({ s with connected := true }, [], [])
  | .timeout =>
    let d := disconnect s
    some (d.1, d.2, [])
  | .writable nwrite =>
    if s.connected then
      if s.sendq.isEmpty then some (s, [], [])
      else
        match send_request s nwrite with
        | none => none
        | some (s', _, drops) => some (s', [], drops)
    else some (s, [], [])
  | .readable chunk =>
    if s.connected then
      let o := parse_packet s.parse_state s.recvq (s.recvbuf ++ chunk)
      let cbs := frameCallbacks o.frames
      if o.err then
        -- on_read returned -1; readcb tears the connection down
        let d := disconnect { s with
                              recvq := o.recvq
                              parse_state := o.ps
                              recvbuf := [] }
        some (d.1, cbs ++ d.2, [])
      else
        some ({ s with
                parse_state := o.ps
                recvq := o.recvq
                recvbuf := o.buf },
          cbs, [])
    else some (s, [], [])

/-- Run a sequence of events from a state, concatenating the emitted
callbacks and drop records. -/
def run (s : ConnState) : List Ev → Option (ConnState × List CB × List Nat)
  | [] => some (s, [], [])
  | e :: evs =>
    match step s e with
    | none => none
    | some (s', cbs, drops) =>
      match run s' evs with
      | none => none
      | some (s'', cbs', drops') => some (s'', cbs ++ cbs', drops ++ drops')

/-- Occurrences of identity `rid` in a request queue. -/
def occQ (rid : Nat) (q : List MemcachedRequest) : Nat :=
  q.countP fun req => req.rid = rid

/-- Occurrences of identity `rid` among both queues of a state. -/
def occS (rid : Nat) (s : ConnState) : Nat :=
  occQ rid s.sendq + occQ rid s.recvq

/-- Callback invocations delivered to identity `rid`. -/
def cbCount (rid : Nat) (cbs : List CB) : Nat :=
  cbs.countP fun c => c.rid = rid

/-- Number of requests with identity `rid` added by one event. -/
def addInc (rid : Nat) : Ev → Nat
  | .add req => if req.rid = rid then 1 else 0
  | _ => 0

/-- Number of requests with identity `rid` added by an event sequence. -/
def addCount (rid : Nat) (evs : List Ev) : Nat :=
  (evs.map (addInc rid)).sum

/-- An event is clean for `rid` when it neither adds a request with that
identity that is already canceled or callback-free, nor cancels `rid`. -/
def evOkFor (rid : Nat) : Ev → Prop
  | .add req => req.rid = rid → req.canceled = false ∧ req.has_cb = true
  | .cancel rid' => rid' ≠ rid
  | _ => True

/-- An event sequence is clean for `rid` when every event is. -/
def cleanEvs (rid : Nat) (evs : List Ev) : Prop :=
  ∀ e ∈ evs, evOkFor rid e

/-- Every queued request with identity `rid` is non-canceled and has a
callback. -/
def cleanState (rid : Nat) (s : ConnState) : Prop :=
  ∀ req ∈ s.sendq ++ s.recvq, req.rid = rid →
    req.canceled = false ∧ req.has_cb = true

/-- Termination measure of the `parse_packet` loop: every iteration either
consumes buffered bytes, pops a receive-queue entry, or moves to a lower
ranked phase. -/
def parseMeas (ps : ParseState) (q : List MemcachedRequest) (buf : List Byte) :
    Nat :=
  3 * buf.length + 2 * q.length + stateRank ps.state

/-- Prepend previously accumulated frames to a parse result. -/
def withAcc (a : List Frame) (o : ParseOut) : ParseOut :=
  ⟨o.ps, o.recvq, o.buf, a ++ o.frames, o.err⟩

/-! ### Concrete scenario data -/

/-- A non-canceled GET request with a callback. -/
def reqGET (rid : Nat) (key : List Byte) : MemcachedRequest :=
  ⟨rid, MEMCACHED_OP_GET, key, [], 0, false, true⟩

/-- A well-formed successful GET response carrying the single value byte `v`:
response magic, opcode GET, key length 0, extra length 4, status 0, total
body 5, zero CAS, 4 extra bytes and a 1-byte value. -/
def respGET1 (v : Byte) : List Byte :=
  [0x81, 0, 0, 0, 4, 0, 0, 0, 0, 0, 0, 5, 0, 0, 0, 0, 0, 0, 0, 0, 0, 0, 0, 0]
    ++ [9, 9, 9, 9] ++ [v]

/-- A non-canceled ADD request whose serialized size is exactly 500 bytes
(24-byte header, 8 extra bytes, 1 key byte, 467 value bytes). -/
def reqADD500 (rid : Nat) : MemcachedRequest :=
  ⟨rid, MEMCACHED_OP_ADD, [1], List.replicate 467 7, 0, false, true⟩

/-- A non-canceled ADD request with a callback whose serialized size
(1333 bytes) exceeds the 1300-byte batch cap on its own. -/
def reqBig : MemcachedRequest :=
  ⟨7, MEMCACHED_OP_ADD, [1], List.replicate 1300 0, 0, false, true⟩

/-- A GET request already marked canceled, with a callback. -/
def reqCanceled : MemcachedRequest :=
  ⟨8, MEMCACHED_OP_GET, [3], [], 0, true, true⟩

/-- Event trace adding the oversize request `reqBig`, connecting, letting the
socket accept 100 bytes, then timing out. -/
def bigDropEvs : List Ev :=
  [.add reqBig, .connectOk, .writable 100, .timeout]

/-- Event trace adding a GET request, connecting, writing it out and reading
back its complete response. -/
def okRoundTripEvs : List Ev :=
  [.add (reqGET 1 [10, 11]), .connectOk, .writable 100,
   .readable (respGET1 65)]

/-- Event trace adding a GET request, canceling it and then timing out. -/
def cancelThenTimeoutEvs : List Ev :=
  [.add (reqGET 4 [2]), .cancel 4, .timeout]

/-- A parse state in the middle of the value phase: 3 value bytes still
outstanding. -/
def midValuePS : ParseState :=
  { ParseState.init with state := .value, read_left := 3 }

/-- The parse state `parseHeader` produces from `respGET1`'s header on a
fresh state: extra phase with 4 extra bytes outstanding. -/
def afterHeaderPS : ParseState :=
  { ParseState.init with
    extralen := 4
    totalbody := 5
    state := .extra
    read_left := 4 }

/-- A 24-byte response header with a bad magic byte. -/
def badMagicBuf : List Byte := 0x99 :: List.replicate 23 0

/-- A 24-byte response header whose total body length (2) is smaller than
key length (0) plus extra length (4). -/
def shortBodyBuf : List Byte :=
  [0x81, 0, 0, 0, 4, 0, 0, 0, 0, 0, 0, 2] ++ List.replicate 12 0

/-- A connection state holding only the oversize request, connected. -/
def bigOnlyState : ConnState :=
  ⟨[reqBig], [], [], 0, ParseState.init, [], true⟩

/-- A connection state holding one 500-byte ADD request, connected. -/
def oneAddState : ConnState :=
  ⟨[reqADD500 1], [], [], 0, ParseState.init, [], true⟩

/-- `oneAddState` after a blocked write staged its request. -/
def oneAddStagedState : ConnState :=
  ⟨[reqADD500 1], [], [make_request (reqADD500 1)], 500, ParseState.init,
   [], true⟩

/-- A connection state holding only the canceled request, connected. -/
def canceledOnlyState : ConnState :=
  ⟨[reqCanceled], [], [], 0, ParseState.init, [], true⟩

/-! ### Parser infrastructure: fuel adequacy and the unfolding equation -/

theorem stateRank_le (st : ParsePhase) : stateRank st ≤ 2 := by
  cases st <;> simp [stateRank]

theorem parseLoopF_succ (f : Nat) (ps : ParseState) (q : List MemcachedRequest)
    (buf : List Byte) (acc : List Frame) :
    parseLoopF (f + 1) ps q buf acc = parseBody (parseLoopF f) ps q buf acc := rfl

theorem parseLoopF_fuel_succ :
    ∀ (f : Nat) (ps : ParseState) (q : List MemcachedRequest) (buf : List Byte)
      (acc : List Frame), parseMeas ps q buf < f →
      parseLoopF (f + 1) ps q buf acc = parseLoopF f ps q buf acc := by
  intro f
  induction f using Nat.strong_induction_on with
  | _ f ih =>
  intro ps q buf acc hm
  obtain ⟨f1, rfl⟩ : ∃ f1, f = f1 + 1 := ⟨f - 1, by omega⟩
  rw [parseLoopF_succ, parseLoopF_succ]
  simp only [parseMeas] at hm
  cases hst : ps.state
  case header24 =>
    rw [hst] at hm
    simp only [stateRank] at hm
    simp only [parseBody, hst]
    by_cases h24 : buf.length < 24
    · simp [h24]
    · simp only [if_neg h24]
      cases q with
      | nil => rfl
      | cons req rest =>
        dsimp only
        cases hph : parseHeader ps buf req with
        | none => rfl
        | some ps' =>
          have hr := stateRank_le ps'.state
          exact ih f1 (by omega) ps' (req :: rest) (buf.drop 24) acc
            (by simp only [parseMeas, List.length_drop, List.length_cons]
                simp only [List.length_cons] at hm
                omega)
  case extra =>
    rw [hst] at hm
    simp only [stateRank] at hm
    simp only [parseBody, hst]
    by_cases hc : ps.read_left - min buf.length ps.read_left = 0
    · simp only [ne_eq, hc, not_true_eq_false, if_false]
      apply ih f1 (by omega)
      simp only [parseMeas, List.length_drop, stateRank]
      omega
    · simp only [ne_eq, hc, not_false_eq_true, if_true]
  case value =>
    rw [hst] at hm
    simp only [stateRank] at hm
    simp only [parseBody, hst]
    by_cases hc : ps.read_left - min buf.length ps.read_left = 0
    · simp only [ne_eq, hc, not_true_eq_false, if_false]
      cases q with
      | nil => rfl
      | cons req rest =>
        dsimp only
        by_cases hbe : ((buf.drop (min buf.length ps.read_left)).isEmpty : Bool) = true
        · simp only [hbe, if_true]
        · simp only [hbe, if_false]
          apply ih f1 (by omega)
          simp only [parseMeas, List.length_drop, List.length_cons, stateRank,
            ParseState.init]
          simp only [List.length_cons] at hm
          omega
    · simp only [ne_eq, hc, not_false_eq_true, if_true]

/-- Any two sufficient fuels give the same parse result. -/
theorem parseLoopF_fuel_eq (f g : Nat) (ps : ParseState)
    (q : List MemcachedRequest) (buf : List Byte) (acc : List Frame)
    (hf : parseMeas ps q buf < f) (hg : parseMeas ps q buf < g) :
    parseLoopF f ps q buf acc = parseLoopF g ps q buf acc := by
  have key : ∀ (k b : Nat), parseMeas ps q buf < b →
      parseLoopF (b + k) ps q buf acc = parseLoopF b ps q buf acc := by
    intro k
    induction k with
    | zero => intro b _; rfl
    | succ k ihk =>
      intro b hb
      have h1 : b + (k + 1) = (b + k) + 1 := by omega
      rw [h1, parseLoopF_fuel_succ (b + k) ps q buf acc (by omega), ihk b hb]
  rcases le_total f g with h | h
  · have := key (g - f) f hf
    rw [show f + (g - f) = g by omega] at this
    exact this.symm
  · have := key (f - g) g hg
    rw [show g + (f - g) = f by omega] at this
    exact this

theorem withAcc_nil (o : ParseOut) : withAcc [] o = o := rfl

theorem withAcc_append (a a' : List Frame) (o : ParseOut) :
    withAcc a (withAcc a' o) = withAcc (a ++ a') o := by
  simp [withAcc]

/-- The frame accumulator factors out of the loop. -/
theorem parseLoopF_acc :
    ∀ (f : Nat) (ps : ParseState) (q : List MemcachedRequest) (buf : List Byte)
      (acc : List Frame),
      parseLoopF f ps q buf acc = withAcc acc (parseLoopF f ps q buf []) := by
  intro f
  induction f with
  | zero => intro ps q buf acc; simp [parseLoopF, withAcc]
  | succ f ihf =>
    intro ps q buf acc
    rw [parseLoopF_succ, parseLoopF_succ]
    cases hst : ps.state
    case header24 =>
      simp only [parseBody, hst]
      by_cases h24 : buf.length < 24
      · simp [h24, withAcc]
      · simp only [if_neg h24]
        cases q with
        | nil => simp [withAcc]
        | cons req rest =>
          dsimp only
          cases hph : parseHeader ps buf req with
          | none => simp [withAcc]
          | some ps' => exact ihf ps' (req :: rest) (buf.drop 24) acc
    case extra =>
      simp only [parseBody, hst]
      by_cases hc : ps.read_left - min buf.length ps.read_left = 0
      · simp only [ne_eq, hc, not_true_eq_false, if_false]
        exact ihf _ q _ acc
      · simp only [ne_eq, hc, not_false_eq_true, if_true]
        simp [withAcc]
    case value =>
      simp only [parseBody, hst]
      by_cases hc : ps.read_left - min buf.length ps.read_left = 0
      · simp only [ne_eq, hc, not_true_eq_false, if_false]
        cases q with
        | nil => simp [withAcc]
        | cons req rest =>
          dsimp only
          by_cases hbe : ((buf.drop (min buf.length ps.read_left)).isEmpty : Bool) = true
          · simp only [if_pos hbe, withAcc, List.nil_append]
          · simp only [if_neg hbe]
            rw [ihf]
            conv_rhs => rw [ihf]
            rw [withAcc_append]
            simp
      · simp only [ne_eq, hc, not_false_eq_true, if_true]
        simp [withAcc]

/-- Unfolding equation for `parse_packet`: one loop iteration, with the
continuation re-entering `parse_packet` itself. -/
theorem parse_packet_eq (ps : ParseState) (q : List MemcachedRequest)
    (buf : List Byte) :
    parse_packet ps q buf =
      parseBody (fun ps' q' buf' acc' => withAcc acc' (parse_packet ps' q' buf'))
        ps q buf [] := by
  show parseLoopF (3 * buf.length + 2 * q.length + 3) ps q buf [] = _
  rw [show 3 * buf.length + 2 * q.length + 3
      = (3 * buf.length + 2 * q.length + 2) + 1 from rfl, parseLoopF_succ]
  cases hst : ps.state
  case header24 =>
    simp only [parseBody, hst]
    by_cases h24 : buf.length < 24
    · simp [h24]
    · simp only [if_neg h24]
      cases q with
      | nil => rfl
      | cons req rest =>
        dsimp only
        cases hph : parseHeader ps buf req with
        | none => rfl
        | some ps' =>
          have hr := stateRank_le ps'.state
          dsimp only
          rw [withAcc_nil]
          show parseLoopF _ _ _ _ _ = parseLoopF _ _ _ _ _
          exact parseLoopF_fuel_eq _ _ ps' (req :: rest) (buf.drop 24) []
            (by simp [parseMeas, parseFuel]; try omega)
            (by simp [parseMeas, parseFuel]; try omega)
  case extra =>
    simp only [parseBody, hst]
    by_cases hc : ps.read_left - min buf.length ps.read_left = 0
    · simp only [ne_eq, hc, not_true_eq_false, if_false]
      rw [withAcc_nil]
      show parseLoopF _ _ _ _ _ = parseLoopF _ _ _ _ _
      exact parseLoopF_fuel_eq _ _ _ q _ []
        (by simp [parseMeas, parseFuel, stateRank]; try omega)
        (by simp [parseMeas, parseFuel, stateRank]; try omega)
    · simp only [ne_eq, hc, not_false_eq_true, if_true]
  case value =>
    simp only [parseBody, hst]
    by_cases hc : ps.read_left - min buf.length ps.read_left = 0
    · simp only [ne_eq, hc, not_true_eq_false, if_false]
      cases q with
      | nil => rfl
      | cons req rest =>
        dsimp only
        by_cases hbe : ((buf.drop (min buf.length ps.read_left)).isEmpty : Bool) = true
        · simp only [if_pos hbe]
        · simp only [if_neg hbe]
          rw [parseLoopF_acc]
          refine congrArg _ ?_
          show parseLoopF _ _ _ _ _ = parseLoopF _ _ _ _ _
          exact parseLoopF_fuel_eq _ _ ParseState.init rest _ []
            (by simp [parseMeas, parseFuel, stateRank, ParseState.init]; try omega)
            (by simp [parseMeas, parseFuel, stateRank, ParseState.init]; try omega)
    · simp only [ne_eq, hc, not_false_eq_true, if_true]

/-! ### Chunk-composition of the parser -/

theorem parseHeader_append (ps : ParseState) (b c : List Byte)
    (req : MemcachedRequest) (h : 24 ≤ b.length) :
    parseHeader ps (b ++ c) req = parseHeader ps b req := by
  have hg : ∀ i, i < 24 → (b ++ c)[i]? = b[i]? := fun i hi => by
    rw [List.getElem?_append, if_pos (show i < b.length by omega)]
  unfold parseHeader get_uint16 get_uint64 get_uint32
  simp [hg]

theorem parseMeas_drop24_lt (ps ps' : ParseState) (q : List MemcachedRequest)
    (b : List Byte) (hst : ps.state = .header24) (h24 : ¬ b.length < 24) :
    parseMeas ps' q (b.drop 24) < parseMeas ps q b := by
  have hr := stateRank_le ps'.state
  simp only [parseMeas, hst, List.length_drop]
  rw [show stateRank ParsePhase.header24 = 0 from rfl]
  omega

theorem parseMeas_extra_lt (ps ps2 : ParseState) (q : List MemcachedRequest)
    (b : List Byte) (n : Nat) (hst : ps.state = .extra)
    (h2 : ps2.state = .value) : parseMeas ps2 q (b.drop n) < parseMeas ps q b := by
  simp only [parseMeas, hst, h2, List.length_drop]
  rw [show stateRank ParsePhase.extra = 2 from rfl,
    show stateRank ParsePhase.value = 1 from rfl]
  omega

theorem parseMeas_pop_lt (ps : ParseState) (req : MemcachedRequest)
    (rest : List MemcachedRequest) (b : List Byte) (n : Nat)
    (hst : ps.state = .value) :
    parseMeas ParseState.init rest (b.drop n) < parseMeas ps (req :: rest) b := by
  simp only [parseMeas, hst, List.length_drop, List.length_cons]
  rw [show stateRank ParseState.init.state = 0 from rfl,
    show stateRank ParsePhase.value = 1 from rfl]
  omega

/-- Streaming composition: parsing `b ++ c` in one call equals parsing `b`
first and then feeding `c` to the resulting parser state — on an error the
extra bytes change nothing, otherwise the later call continues from the
checkpointed state with the leftover buffer, and the frame lists
concatenate. -/
theorem parse_append :
    ∀ (n : Nat) (ps : ParseState) (q : List MemcachedRequest) (b c : List Byte),
      parseMeas ps q b < n →
      ((parse_packet ps q b).err = true →
        parse_packet ps q (b ++ c) = parse_packet ps q b) ∧
      ((parse_packet ps q b).err = false →
        parse_packet ps q (b ++ c) =
          withAcc (parse_packet ps q b).frames
            (parse_packet (parse_packet ps q b).ps (parse_packet ps q b).recvq
              ((parse_packet ps q b).buf ++ c))) := by
  intro n
  induction n using Nat.strong_induction_on with
  | _ n ih =>
  intro ps q b c hm
  have IH : ∀ ps' q' b' (c' : List Byte),
      parseMeas ps' q' b' < parseMeas ps q b →
      ((parse_packet ps' q' b').err = true →
        parse_packet ps' q' (b' ++ c') = parse_packet ps' q' b') ∧
      ((parse_packet ps' q' b').err = false →
        parse_packet ps' q' (b' ++ c') =
          withAcc (parse_packet ps' q' b').frames
            (parse_packet (parse_packet ps' q' b').ps (parse_packet ps' q' b').recvq
              ((parse_packet ps' q' b').buf ++ c'))) := fun ps' q' b' c' hlt =>
    ih (parseMeas ps' q' b' + 1) (by omega) ps' q' b' c' (by omega)
  rw [parse_packet_eq ps q b, parse_packet_eq ps q (b ++ c)]
  cases hst : ps.state
  case header24 =>
    simp only [parseBody, hst]
    by_cases h24 : b.length < 24
    · by_cases h24c : (b ++ c).length < 24
      · simp only [if_pos h24, if_pos h24c]
        refine ⟨fun hE => absurd hE (by simp), fun _ => ?_⟩
        rw [withAcc_nil, parse_packet_eq ps q (b ++ c)]
        simp only [parseBody, hst, if_pos h24c]
      · simp only [if_pos h24, if_neg h24c]
        refine ⟨fun hE => absurd hE (by simp), fun _ => ?_⟩
        rw [withAcc_nil, parse_packet_eq ps q (b ++ c)]
        simp only [parseBody, hst, if_neg h24c]
    · have h24c : ¬ (b ++ c).length < 24 := by
        rw [List.length_append]; omega
      simp only [if_neg h24, if_neg h24c]
      cases q with
      | nil => exact ⟨fun _ => rfl, fun hE => absurd hE (by simp)⟩
      | cons req rest =>
        dsimp only
        rw [parseHeader_append ps b c req (by omega)]
        cases hph : parseHeader ps b req with
        | none => exact ⟨fun _ => rfl, fun hE => absurd hE (by simp)⟩
        | some ps' =>
          dsimp only
          simp only [withAcc_nil]
          have hdrop : (b ++ c).drop 24 = b.drop 24 ++ c := by
            rw [List.drop_append_eq_append_drop, show 24 - b.length = 0 by omega,
              List.drop_zero]
          rw [hdrop]
          exact IH ps' (req :: rest) (b.drop 24) c
            (parseMeas_drop24_lt ps ps' (req :: rest) b hst h24)
  case extra =>
    simp only [parseBody, hst, List.length_append]
    by_cases hcb : ps.read_left - min b.length ps.read_left = 0
    · have hcc : ps.read_left - min (b.length + c.length) ps.read_left = 0 := by
        omega
      simp only [ne_eq, hcb, hcc, not_true_eq_false, if_false]
      have hdrop : (b ++ c).drop (min (b.length + c.length) ps.read_left)
          = b.drop (min b.length ps.read_left) ++ c := by
        rw [show min (b.length + c.length) ps.read_left = ps.read_left by omega,
          show min b.length ps.read_left = ps.read_left by omega,
          List.drop_append_eq_append_drop,
          show ps.read_left - b.length = 0 by omega, List.drop_zero]
      simp only [withAcc_nil]
      rw [hdrop]
      exact IH _ q _ c (parseMeas_extra_lt ps _ q b _ hst rfl)
    · simp only [ne_eq, hcb, not_false_eq_true, if_true]
      refine ⟨fun hE => absurd hE (by simp), fun _ => ?_⟩
      simp only [List.nil_append, withAcc_nil]
      rw [parse_packet_eq _ q c]
      simp only [parseBody]
      by_cases hRc : ps.read_left - min (b.length + c.length) ps.read_left = 0
      · have hR1 : (ps.read_left - min b.length ps.read_left)
            - min c.length (ps.read_left - min b.length ps.read_left) = 0 := by
          omega
        simp only [ne_eq, hRc, hR1, not_true_eq_false, if_false]
        have hdrop : (b ++ c).drop (min (b.length + c.length) ps.read_left)
            = c.drop (min c.length (ps.read_left - min b.length ps.read_left)) := by
          rw [show min (b.length + c.length) ps.read_left = ps.read_left by omega,
            List.drop_append_eq_append_drop,
            List.drop_eq_nil_of_le (by omega), List.nil_append]
          congr 1
          omega
        rw [hdrop, withAcc_nil]
      · have hR1 : ¬ ((ps.read_left - min b.length ps.read_left)
            - min c.length (ps.read_left - min b.length ps.read_left) = 0) := by
          omega
        simp only [ne_eq, hRc, hR1, not_false_eq_true, if_true]
        rw [show ps.read_left - min (b.length + c.length) ps.read_left
            = (ps.read_left - min b.length ps.read_left)
              - min c.length (ps.read_left - min b.length ps.read_left) by omega]
  case value =>
    simp only [parseBody, hst, List.length_append]
    by_cases hcb : ps.read_left - min b.length ps.read_left = 0
    · have hcc : ps.read_left - min (b.length + c.length) ps.read_left = 0 := by
        omega
      simp only [ne_eq, hcb, hcc, not_true_eq_false, if_false]
      have htake : (b ++ c).take (min (b.length + c.length) ps.read_left)
          = b.take (min b.length ps.read_left) := by
        rw [show min (b.length + c.length) ps.read_left = ps.read_left by omega,
          show min b.length ps.read_left = ps.read_left by omega,
          List.take_append_eq_append_take,
          show ps.read_left - b.length = 0 by omega, List.take_zero,
          List.append_nil]
      have hdropv : (b ++ c).drop (min (b.length + c.length) ps.read_left)
          = b.drop (min b.length ps.read_left) ++ c := by
        rw [show min (b.length + c.length) ps.read_left = ps.read_left by omega,
          show min b.length ps.read_left = ps.read_left by omega,
          List.drop_append_eq_append_drop,
          show ps.read_left - b.length = 0 by omega, List.drop_zero]
      rw [htake, hdropv]
      cases q with
      | nil => exact ⟨fun _ => rfl, fun hE => absurd hE (by simp)⟩
      | cons req rest =>
        dsimp only
        by_cases hbe : ((b.drop (min b.length ps.read_left)).isEmpty : Bool) = true
        · have hnil : b.drop (min b.length ps.read_left) = [] :=
            List.isEmpty_iff.mp hbe
          simp only [if_pos hbe]
          rw [hnil]
          simp only [List.nil_append]
          refine ⟨fun hE => absurd hE (by simp), fun _ => ?_⟩
          by_cases hce : (c.isEmpty : Bool) = true
          · simp only [if_pos hce]
            have hcnil : c = [] := List.isEmpty_iff.mp hce
            subst hcnil
            rw [parse_packet_eq ParseState.init rest []]
            simp [parseBody, ParseState.init, withAcc]
          · simp only [if_neg hce]
        · have hne : ¬ (((b.drop (min b.length ps.read_left) ++ c).isEmpty : Bool) = true) := by
            intro hx
            have h1 := List.append_eq_nil.mp (List.isEmpty_iff.mp hx)
            exact hbe (by simp [h1.1])
          simp only [if_neg hbe, if_neg hne]
          have hIH := IH ParseState.init rest (b.drop (min b.length ps.read_left)) c
            (parseMeas_pop_lt ps req rest b _ hst)
          constructor
          · intro hE
            have hE' : (parse_packet ParseState.init rest
                (b.drop (min b.length ps.read_left))).err = true := hE
            rw [hIH.1 hE']
          · intro hE
            have hE' : (parse_packet ParseState.init rest
                (b.drop (min b.length ps.read_left))).err = false := hE
            rw [hIH.2 hE']
            simp [withAcc, List.append_assoc]
    · simp only [ne_eq, hcb, not_false_eq_true, if_true]
      refine ⟨fun hE => absurd hE (by simp), fun _ => ?_⟩
      simp only [List.nil_append, withAcc_nil]
      rw [parse_packet_eq _ q c]
      simp only [parseBody]
      by_cases hRc : ps.read_left - min (b.length + c.length) ps.read_left = 0
      · have hR1 : (ps.read_left - min b.length ps.read_left)
            - min c.length (ps.read_left - min b.length ps.read_left) = 0 := by
          omega
        simp only [ne_eq, hRc, hR1, not_true_eq_false, if_false]
        have htake2 : (b ++ c).take (min (b.length + c.length) ps.read_left)
            = b.take (min b.length ps.read_left)
              ++ c.take (min c.length (ps.read_left - min b.length ps.read_left)) := by
          rw [show min (b.length + c.length) ps.read_left = ps.read_left by omega,
            show min b.length ps.read_left = b.length by omega,
            List.take_append_eq_append_take, List.take_of_length_le (by omega),
            show min c.length (ps.read_left - b.length) = ps.read_left - b.length by omega,
            List.take_length]
        have hdrop2 : (b ++ c).drop (min (b.length + c.length) ps.read_left)
            = c.drop (min c.length (ps.read_left - min b.length ps.read_left)) := by
          rw [show min (b.length + c.length) ps.read_left = ps.read_left by omega,
            List.drop_append_eq_append_drop,
            List.drop_eq_nil_of_le (by omega), List.nil_append]
          congr 1
          omega
        rw [htake2, hdrop2, ← List.append_assoc]
        cases q with
        | nil => rfl
        | cons req rest => rfl
      · have hR1 : ¬ ((ps.read_left - min b.length ps.read_left)
            - min c.length (ps.read_left - min b.length ps.read_left) = 0) := by
          omega
        simp only [ne_eq, hRc, hR1, not_false_eq_true, if_true]
        have htk : (b ++ c).take (min (b.length + c.length) ps.read_left)
            = b.take (min b.length ps.read_left)
              ++ c.take (min c.length (ps.read_left - min b.length ps.read_left)) := by
          rw [show min (b.length + c.length) ps.read_left = b.length + c.length by omega,
            show min b.length ps.read_left = b.length by omega,
            show min c.length (ps.read_left - b.length) = c.length by omega,
            List.take_length, List.take_length,
            List.take_of_length_le (by rw [List.length_append])]
        rw [htk, ← List.append_assoc,
          show ps.read_left - min (b.length + c.length) ps.read_left
            = (ps.read_left - min b.length ps.read_left)
              - min c.length (ps.read_left - min b.length ps.read_left) by omega]

/-- Feeding chunks one read event at a time equals feeding their
concatenation in a single read event. -/
theorem feedChunks_flatten :
    ∀ (cs : List (List Byte)) (s : RState) (c : List Byte),
      feedChunks s c cs = feed s ((c :: cs).flatten) := by
  intro cs
  induction cs with
  | nil =>
    intro s c
    show feed s c = feed s ((c :: []).flatten)
    simp [feed]
  | cons c' cs' ihc =>
    intro s c
    have happ := parse_append (parseMeas s.ps s.recvq (s.buf ++ c) + 1) s.ps
      s.recvq (s.buf ++ c) ((c' :: cs').flatten) (by omega)
    rw [show ((c :: c' :: cs').flatten) = c ++ (c' :: cs').flatten from by simp]
    by_cases he : (parse_packet s.ps s.recvq (s.buf ++ c)).err = true
    · have h1 := happ.1 he
      unfold feedChunks feed
      rw [← List.append_assoc, h1]
      simp [he]
    · have he' : (parse_packet s.ps s.recvq (s.buf ++ c)).err = false := by
        simpa using he
      have h2 := happ.2 he'
      unfold feedChunks feed
      rw [← List.append_assoc, h2]
      simp only [he']
      rw [ihc ⟨(parse_packet s.ps s.recvq (s.buf ++ c)).ps,
        (parse_packet s.ps s.recvq (s.buf ++ c)).recvq,
        (parse_packet s.ps s.recvq (s.buf ++ c)).buf⟩ c']
      simp [feed, withAcc]

/-- The parser correlates completed frames with the front of the receive
queue: the dispatched frames are exactly a popped prefix of `recvq`, in
order, and the remaining queue is the matching suffix. -/
theorem parse_take :
    ∀ (n : Nat) (ps : ParseState) (q : List MemcachedRequest) (buf : List Byte),
      parseMeas ps q buf < n →
      ∃ k, (parse_packet ps q buf).recvq = q.drop k ∧
        (parse_packet ps q buf).frames.map (·.req) = q.take k := by
  intro n
  induction n using Nat.strong_induction_on with
  | _ n ih =>
  intro ps q buf hm
  have IH : ∀ ps' q' b', parseMeas ps' q' b' < parseMeas ps q buf →
      ∃ k, (parse_packet ps' q' b').recvq = q'.drop k ∧
        (parse_packet ps' q' b').frames.map (·.req) = q'.take k :=
    fun ps' q' b' hlt => ih (parseMeas ps' q' b' + 1) (by omega) ps' q' b' (by omega)
  rw [parse_packet_eq]
  cases hst : ps.state
  case header24 =>
    simp only [parseBody, hst]
    by_cases h24 : buf.length < 24
    · simp only [if_pos h24]
      exact ⟨0, rfl, rfl⟩
    · simp only [if_neg h24]
      cases q with
      | nil => exact ⟨0, rfl, rfl⟩
      | cons req rest =>
        dsimp only
        cases hph : parseHeader ps buf req with
        | none => exact ⟨0, rfl, rfl⟩
        | some ps' =>
          obtain ⟨k, h1, h2⟩ := IH ps' (req :: rest) (buf.drop 24)
            (parseMeas_drop24_lt ps ps' (req :: rest) buf hst h24)
          exact ⟨k, h1, h2⟩
  case extra =>
    simp only [parseBody, hst]
    by_cases hc : ps.read_left - min buf.length ps.read_left = 0
    · simp only [ne_eq, hc, not_true_eq_false, if_false]
      obtain ⟨k, h1, h2⟩ := IH
        { ps with
          state := .value
          read_left := ps.totalbody - ps.keylen - ps.extralen } q
        (buf.drop (min buf.length ps.read_left))
        (parseMeas_extra_lt ps _ q buf _ hst rfl)
      exact ⟨k, h1, h2⟩
    · simp only [ne_eq, hc, not_false_eq_true, if_true]
      exact ⟨0, rfl, rfl⟩
  case value =>
    simp only [parseBody, hst]
    by_cases hc : ps.read_left - min buf.length ps.read_left = 0
    · simp only [ne_eq, hc, not_true_eq_false, if_false]
      cases q with
      | nil => exact ⟨0, rfl, rfl⟩
      | cons req rest =>
        by_cases hbe : ((buf.drop (min buf.length ps.read_left)).isEmpty : Bool) = true
        · simp only [if_pos hbe]
          exact ⟨1, rfl, rfl⟩
        · simp only [if_neg hbe]
          obtain ⟨k, h1, h2⟩ := IH ParseState.init rest
            (buf.drop (min buf.length ps.read_left))
            (parseMeas_pop_lt ps req rest buf _ hst)
          refine ⟨k + 1, ?_, ?_⟩
          · simpa [withAcc] using h1
          · simp only [withAcc, List.nil_append, List.map_append, List.map_cons,
              List.map_nil, List.take_succ_cons]
            simp [h2]
    · simp only [ne_eq, hc, not_false_eq_true, if_true]
      exact ⟨0, rfl, rfl⟩

/-! ### Send-side lemmas: staging pass and drain loop -/

/-- `stage` only appends: what it appends and adds is described by
`stagedSel`. -/
theorem stage_eq_stagedSel :
    ∀ (q : List MemcachedRequest) (bufv : List MemcachedSendbuf) (sum : Nat),
      stage q bufv sum =
        (bufv ++ (stagedSel q sum).map make_request,
         sum + ((stagedSel q sum).map fun r => sendbufLeft (make_request r)).sum) := by
  intro q
  induction q with
  | nil => intro bufv sum; simp [stage, stagedSel]
  | cons r rest ihq =>
    intro bufv sum
    by_cases hc : r.canceled
    · simp [stage, stagedSel, hc, ihq]
    · by_cases hsz : serialized_size r + sum > 1300
      · simp [stage, stagedSel, hc, hsz]
      · rw [show stage (r :: rest) bufv sum
            = stage rest (bufv ++ [make_request r]) (sum + sendbufLeft (make_request r)) from by
            simp only [stage]; rw [if_neg (by simp [hc]), if_neg hsz],
          show stagedSel (r :: rest) sum
            = r :: stagedSel rest (sum + sendbufLeft (make_request r)) from by
            simp only [stagedSel]; rw [if_neg (by simp [hc]), if_neg hsz],
          ihq]
        simp [Prod.ext_iff, List.append_assoc]
        omega

/-- For the two real opcodes the staged byte count of an entry is at least
its serialized size (for `ADD` they coincide; a `GET` whose `value` field is
non-empty stages the value bytes as well). -/
theorem serialized_le_sendbufLeft (r : MemcachedRequest)
    (h : r.op = MEMCACHED_OP_GET ∨ r.op = MEMCACHED_OP_ADD) :
    serialized_size r ≤ sendbufLeft (make_request r) := by
  by_cases hg : r.op = MEMCACHED_OP_GET
  · simp [serialized_size, make_request, sendbufLeft, hg, put_uint16be,
      put_uint32be]
    omega
  · rcases h with h | h
    · exact absurd h hg
    · simp [serialized_size, make_request, sendbufLeft, hg, h, put_uint16be,
        put_uint32be, MEMCACHED_OP_GET, MEMCACHED_OP_ADD]
      omega

/-- The staged batch respects the 1300-byte cap: unless empty, the serialized
sizes of the staged requests sum to at most `1300 - t` above any lower bound
`t` on the starting byte count. -/
theorem stagedSel_cap :
    ∀ (q : List MemcachedRequest) (sum t : Nat), t ≤ sum →
      (∀ r ∈ q, r.op = MEMCACHED_OP_GET ∨ r.op = MEMCACHED_OP_ADD) →
      stagedSel q sum = [] ∨
        t + ((stagedSel q sum).map serialized_size).sum ≤ 1300 := by
  intro q
  induction q with
  | nil => intro sum t _ _; exact Or.inl rfl
  | cons r rest ihq =>
    intro sum t ht hops
    by_cases hc : r.canceled
    · simpa [stagedSel, hc] using
        ihq sum t ht (fun x hx => hops x (List.mem_cons_of_mem r hx))
    · by_cases hsz : serialized_size r + sum > 1300
      · simp [stagedSel, hc, hsz]
      · have hle := serialized_le_sendbufLeft r (hops r (List.mem_cons_self r rest))
        have hrec := ihq (sum + sendbufLeft (make_request r))
          (t + serialized_size r) (by omega)
          (fun x hx => hops x (List.mem_cons_of_mem r hx))
        right
        rw [show stagedSel (r :: rest) sum
            = r :: stagedSel rest (sum + sendbufLeft (make_request r)) from by
          simp only [stagedSel]; rw [if_neg (by simp [hc]), if_neg hsz]]
        simp only [List.map_cons, List.sum_cons]
        rcases hrec with hnil | hcap
        · rw [hnil]
          simp only [List.map_nil, List.sum_nil]
          omega
        · omega

/-- The requests selected by a staging pass form the non-canceled part of a
prefix of the send queue, and staging stops exactly at the first non-canceled
request that would push the byte count past 1300. -/
theorem stagedSel_prefix :
    ∀ (q : List MemcachedRequest) (sum : Nat),
      ∃ pre suf, q = pre ++ suf ∧
        stagedSel q sum = pre.filter (fun r => !r.canceled) ∧
        (suf = [] ∨ ∃ r rest2, suf = r :: rest2 ∧ r.canceled = false ∧
          serialized_size r
            + (sum + ((stagedSel q sum).map fun x => sendbufLeft (make_request x)).sum)
            > 1300) := by
  intro q
  induction q with
  | nil => intro sum; exact ⟨[], [], rfl, rfl, Or.inl rfl⟩
  | cons r rest ihq =>
    intro sum
    by_cases hc : r.canceled
    · obtain ⟨pre, suf, he, hsel, hstop⟩ := ihq sum
      refine ⟨r :: pre, suf, by simp [he], ?_, ?_⟩
      · simp [stagedSel, hc, hsel]
      · rcases hstop with h | ⟨r2, rest2, h1, h2, h3⟩
        · exact Or.inl h
        · exact Or.inr ⟨r2, rest2, h1, h2, by simpa [stagedSel, hc] using h3⟩
    · by_cases hsz : serialized_size r + sum > 1300
      · refine ⟨[], r :: rest, rfl, by simp [stagedSel, hc, hsz], Or.inr
          ⟨r, rest, rfl, by simpa using hc, ?_⟩⟩
        have hnil : stagedSel (r :: rest) sum = [] := by simp [stagedSel, hc, hsz]
        rw [hnil]
        simpa using hsz
      · obtain ⟨pre, suf, he, hsel, hstop⟩ := ihq (sum + sendbufLeft (make_request r))
        have hselr : stagedSel (r :: rest) sum
            = r :: stagedSel rest (sum + sendbufLeft (make_request r)) := by
          simp only [stagedSel]
          rw [if_neg (by simp [hc]), if_neg hsz]
        refine ⟨r :: pre, suf, by simp [he], ?_, ?_⟩
        · rw [hselr, hsel]
          simp [hc]
        · rcases hstop with h | ⟨r2, rest2, h1, h2, h3⟩
          · exact Or.inl h
          · refine Or.inr ⟨r2, rest2, h1, h2, ?_⟩
            rw [hselr]
            simp only [List.map_cons, List.sum_cons]
            omega

/-- The drain loop (lines 453-474) pops a prefix of the send queue: canceled
entries of that prefix are dropped, the non-canceled ones are appended — in
order — to the back of the receive queue. -/
theorem drainF_spec :
    ∀ (fuel nwrite : Nat) (bufv : List MemcachedSendbuf)
      (sendq recvq : List MemcachedRequest)
      (out : List MemcachedSendbuf × List MemcachedRequest × List MemcachedRequest),
      drainF fuel nwrite bufv sendq recvq = some out →
      ∃ pre, sendq = pre ++ out.2.1 ∧
        out.2.2 = recvq ++ pre.filter (fun r => !r.canceled) := by
  intro fuel
  induction fuel with
  | zero => intro nwrite bufv sendq recvq out h; exact absurd h (by simp [drainF])
  | succ fuel ihf =>
    intro nwrite bufv sendq recvq out h
    match nwrite, h with
    | 0, h =>
      simp only [drainF, Option.some.injEq] at h
      exact ⟨[], by simp [← h], by simp [← h]⟩
    | (nw + 1), h =>
      match bufv, sendq, h with
      | [], _, h => exact absurd h (by simp [drainF])
      | _ :: _, [], h => exact absurd h (by simp [drainF])
      | b :: brest, r :: qrest, h =>
        simp only [drainF] at h
        by_cases hc : r.canceled
        · rw [if_pos hc] at h
          obtain ⟨pre, h1, h2⟩ := ihf (nw + 1) (b :: brest) qrest recvq out h
          exact ⟨r :: pre, by simp [h1], by simpa [hc] using h2⟩
        · rw [if_neg hc] at h
          by_cases hpart : ({ b with headbuf := b.headbuf.drop (min (nw + 1) b.headbuf.length) } : MemcachedSendbuf).headbuf.length ≠ 0
              ∨ ({ b with headbuf := b.headbuf.drop (min (nw + 1) b.headbuf.length) } : MemcachedSendbuf).send_value_left
                - min ((nw + 1) - min (nw + 1) b.headbuf.length)
                  ({ b with headbuf := b.headbuf.drop (min (nw + 1) b.headbuf.length) } : MemcachedSendbuf).send_value_left ≠ 0
          · rw [if_pos hpart] at h
            simp only [Option.some.injEq] at h
            exact ⟨[], by simp [← h], by simp [← h]⟩
          · rw [if_neg hpart] at h
            obtain ⟨pre, h1, h2⟩ := ihf _ brest qrest (recvq ++ [r]) out h
            refine ⟨r :: pre, by simp [h1], ?_⟩
            rw [h2]
            simp [hc]

/-! ### Callback accounting over event traces -/

theorem occQ_append (rid : Nat) (a b : List MemcachedRequest) :
    occQ rid (a ++ b) = occQ rid a + occQ rid b := by
  simp [occQ, List.countP_append]

theorem occQ_take_drop (rid : Nat) (q : List MemcachedRequest) (k : Nat) :
    occQ rid (q.take k) + occQ rid (q.drop k) = occQ rid q := by
  rw [← occQ_append, List.take_append_drop]

/-- Queues whose `rid`-entries are non-canceled lose nothing when the drain
loop filters out canceled entries. -/
theorem occQ_filter_clean (rid : Nat) (q : List MemcachedRequest)
    (h : ∀ req ∈ q, req.rid = rid → req.canceled = false) :
    occQ rid (q.filter fun r => !r.canceled) = occQ rid q := by
  induction q with
  | nil => rfl
  | cons r rest ihq =>
    have hrest := fun x hx hrid => h x (List.mem_cons_of_mem r hx) hrid
    by_cases hcanc : r.canceled
    · have hne : ¬ (r.rid = rid) := fun hrid => by
        simp [h r (List.mem_cons_self r rest) hrid] at hcanc
      simp [occQ, List.filter_cons, hcanc, List.countP_cons, hne]
      simpa [occQ] using ihq hrest
    · simp [occQ, List.filter_cons, hcanc, List.countP_cons]
      simpa [occQ] using ihq hrest

theorem occQ_cancelReq (rid rid' : Nat) (q : List MemcachedRequest) :
    occQ rid (cancelReq rid' q) = occQ rid q := by
  unfold occQ cancelReq
  rw [List.countP_map]
  congr 1
  funext x
  by_cases hx : x.rid = rid' <;> simp [hx]

theorem cbCount_append (rid : Nat) (a b : List CB) :
    cbCount rid (a ++ b) = cbCount rid a + cbCount rid b := by
  simp [cbCount, List.countP_append]

/-- `clear_request` delivers exactly one error callback per queue entry with
a callback — for clean queues, one per `rid`-occurrence. -/
theorem cbCount_clear (rid : Nat) (q : List MemcachedRequest)
    (h : ∀ req ∈ q, req.rid = rid → req.has_cb = true) :
    cbCount rid (clear_request q) = occQ rid q := by
  induction q with
  | nil => rfl
  | cons r rest ihq =>
    have hrest := fun x hx => h x (List.mem_cons_of_mem r hx)
    by_cases hcb : r.has_cb
    · simp [clear_request, cbCount, occQ, List.filter_cons, hcb,
        List.countP_cons]
      simpa [clear_request, cbCount, occQ, List.countP_map] using ihq hrest
    · have hne : ¬ (r.rid = rid) := fun hrid =>
        hcb (h r (List.mem_cons_self r rest) hrid)
      simp [clear_request, cbCount, occQ, List.filter_cons, hcb,
        List.countP_cons, hne]
      simpa [clear_request, cbCount, occQ, List.countP_map] using ihq hrest

/-- The parser's dispatched callbacks cover every non-canceled frame with a
callback — for clean frames, one per `rid`-occurrence among the popped
requests. -/
theorem cbCount_frames (rid : Nat) (frames : List Frame)
    (h : ∀ f ∈ frames, f.req.rid = rid →
      f.req.canceled = false ∧ f.req.has_cb = true) :
    cbCount rid (frameCallbacks frames)
      = (frames.map (·.req)).countP (fun r => r.rid = rid) := by
  induction frames with
  | nil => rfl
  | cons f fr ihf =>
    have hrest := fun x hx => h x (List.mem_cons_of_mem f hx)
    by_cases hd : (!f.req.canceled && f.req.has_cb) = true
    · simp [frameCallbacks, cbCount, List.filter_cons, hd, List.countP_cons]
      simpa [frameCallbacks, cbCount, List.countP_map] using ihf hrest
    · have hne : ¬ (f.req.rid = rid) := fun hrid => by
        obtain ⟨h1, h2⟩ := h f (List.mem_cons_self f fr) hrid
        simp [h1, h2] at hd
      simp [frameCallbacks, cbCount, List.filter_cons, hd, List.countP_cons,
        hne]
      simpa [frameCallbacks, cbCount, List.countP_map] using ihf hrest

theorem drops_count (rid : Nat) (q : List MemcachedRequest) :
    (q.map (·.rid)).countP (fun d => d = rid) = occQ rid q := by
  unfold occQ
  rw [List.countP_map]
  rfl

/-- Shape of one `send_request` call: either the empty-batch clear (drops
everything in `sendq_`), a blocked write (queues unchanged), or a drain that
moves the non-canceled part of a send-queue prefix to the receive queue. -/
theorem send_request_spec (s : ConnState) (nw : Nat) (s' : ConnState)
    (w : List Byte) (drops : List Nat)
    (h : send_request s nw = some (s', w, drops)) :
    (s'.sendq = [] ∧ s'.recvq = s.recvq ∧ drops = s.sendq.map (·.rid)) ∨
    (s'.sendq = s.sendq ∧ s'.recvq = s.recvq ∧ drops = []) ∨
    (drops = [] ∧ ∃ pre, s.sendq = pre ++ s'.sendq ∧
      s'.recvq = s.recvq ++ pre.filter (fun r => !r.canceled)) := by
  unfold send_request at h
  by_cases h0 : s.sendsum = 0 ∧
      (if s.sendsum = 0 then stage s.sendq s.sendbufv s.sendsum
       else (s.sendbufv, s.sendsum)).2 = 0
  · rw [if_pos h0] at h
    simp only [Option.some.injEq, Prod.mk.injEq] at h
    obtain ⟨ha, hw, hd⟩ := h
    subst ha hd
    exact Or.inl ⟨rfl, rfl, rfl⟩
  · rw [if_neg h0] at h
    by_cases hnw : min nw (buildIov (if s.sendsum = 0
        then stage s.sendq s.sendbufv s.sendsum
        else (s.sendbufv, s.sendsum)).1 0).flatten.length = 0
    · rw [if_pos hnw] at h
      simp only [Option.some.injEq, Prod.mk.injEq] at h
      obtain ⟨ha, hw, hd⟩ := h
      subst ha hd
      exact Or.inr (Or.inl ⟨rfl, rfl, rfl⟩)
    · rw [if_neg hnw] at h
      cases hdr : drainF (s.sendq.length + 1)
          (min nw (buildIov (if s.sendsum = 0
            then stage s.sendq s.sendbufv s.sendsum
            else (s.sendbufv, s.sendsum)).1 0).flatten.length)
          (if s.sendsum = 0 then stage s.sendq s.sendbufv s.sendsum
           else (s.sendbufv, s.sendsum)).1 s.sendq s.recvq with
      | none => rw [hdr] at h; exact absurd h (by simp)
      | some out =>
        rw [hdr] at h
        obtain ⟨pre, h1, h2⟩ := drainF_spec _ _ _ _ _ _ hdr
        simp only [Option.some.injEq, Prod.mk.injEq] at h
        obtain ⟨ha, hw, hd⟩ := h
        subst ha hd
        exact Or.inr (Or.inr ⟨rfl, pre, h1, h2⟩)

theorem cleanQ_cancelReq (rid rid' : Nat) (hne : rid' ≠ rid)
    (q : List MemcachedRequest)
    (hq : ∀ req ∈ q, req.rid = rid → req.canceled = false ∧ req.has_cb = true) :
    ∀ req ∈ cancelReq rid' q, req.rid = rid →
      req.canceled = false ∧ req.has_cb = true := by
  intro req hmem hr
  unfold cancelReq at hmem
  rw [List.mem_map] at hmem
  obtain ⟨x, hx, hfx⟩ := hmem
  by_cases hxr : x.rid = rid'
  · rw [if_pos hxr] at hfx
    subst hfx
    have : rid' = rid := by rw [← hxr]; simpa using hr
    exact absurd this hne
  · rw [if_neg hxr] at hfx
    subst hfx
    exact hq x hx hr

/-- One event preserves the per-identity callback balance: for a clean
identity, the queued occurrences plus delivered callbacks plus empty-batch
drops grow exactly by the requests added, and cleanliness persists. -/
theorem step_balance (rid : Nat) (s : ConnState) (e : Ev) (s' : ConnState)
    (cbs : List CB) (drops : List Nat)
    (hcl : cleanState rid s) (he : evOkFor rid e)
    (hstep : step s e = some (s', cbs, drops)) :
    occS rid s' + cbCount rid cbs + drops.countP (fun d => d = rid)
      = occS rid s + addInc rid e ∧ cleanState rid s' := by
  have hsendq : ∀ req ∈ s.sendq, req.rid = rid →
      req.canceled = false ∧ req.has_cb = true :=
    fun req hx => hcl req (by simp [hx])
  have hrecvq : ∀ req ∈ s.recvq, req.rid = rid →
      req.canceled = false ∧ req.has_cb = true :=
    fun req hx => hcl req (by simp [hx])
  cases e with
  | add req =>
    simp only [step, Option.some.injEq, Prod.mk.injEq] at hstep
    obtain ⟨ha, hb, hd⟩ := hstep
    subst ha hb hd
    constructor
    · by_cases hr : req.rid = rid <;>
        simp [occS, occQ_append, occQ, cbCount, addInc, hr,
          List.countP_cons] <;> omega
    · intro x hx hr
      simp only [List.mem_append] at hx
      rcases hx with (hx | hx) | hx
      · exact hsendq x hx hr
      · rw [List.mem_singleton] at hx
        subst hx
        exact he hr
      · exact hrecvq x hx hr
  | cancel rid' =>
    simp only [step, Option.some.injEq, Prod.mk.injEq] at hstep
    obtain ⟨ha, hb, hd⟩ := hstep
    subst ha hb hd
    refine ⟨by simp [occS, occQ_cancelReq, cbCount, addInc], ?_⟩
    intro x hx hr
    simp only [List.mem_append] at hx
    rcases hx with hx | hx
    · exact cleanQ_cancelReq rid rid' he s.sendq hsendq x hx hr
    · exact cleanQ_cancelReq rid rid' he s.recvq hrecvq x hx hr
  | connectOk =>
    simp only [step, Option.some.injEq, Prod.mk.injEq] at hstep
    obtain ⟨ha, hb, hd⟩ := hstep
    subst ha hb hd
    refine ⟨by simp [occS, cbCount, addInc], ?_⟩
    intro x hx hr
    exact hcl x (by simpa using hx) hr
  | timeout =>
    simp only [step, disconnect, Option.some.injEq, Prod.mk.injEq] at hstep
    obtain ⟨ha, hb, hd⟩ := hstep
    subst ha hb hd
    constructor
    · rw [cbCount_append,
        cbCount_clear rid s.recvq (fun x hx hr => (hrecvq x hx hr).2),
        cbCount_clear rid s.sendq (fun x hx hr => (hsendq x hx hr).2)]
      simp [occS, ConnState.init, occQ, addInc]
      omega
    · intro x hx _
      simp [ConnState.init] at hx
  | writable nwrite =>
    simp only [step] at hstep
    by_cases hconn : s.connected = true
    · rw [if_pos hconn] at hstep
      by_cases hje : s.sendq.isEmpty = true
      · rw [if_pos hje] at hstep
        simp only [Option.some.injEq, Prod.mk.injEq] at hstep
        obtain ⟨ha, hb, hd⟩ := hstep
        subst ha hb hd
        exact ⟨by simp [cbCount, addInc], hcl⟩
      · rw [if_neg hje] at hstep
        cases hsr : send_request s nwrite with
        | none => rw [hsr] at hstep; exact absurd hstep (by simp)
        | some out =>
          obtain ⟨s2, w2, dr2⟩ := out
          rw [hsr] at hstep
          simp only [Option.some.injEq, Prod.mk.injEq] at hstep
          obtain ⟨ha, hb, hd⟩ := hstep
          subst ha hb hd
          rcases send_request_spec s nwrite s2 w2 dr2 hsr with
            ⟨h1, h2, h3⟩ | ⟨h1, h2, h3⟩ | ⟨h3, pre, h1, h2⟩
          · constructor
            · rw [h3]
              simp only [occS, h1, h2]
              rw [drops_count]
              simp [occQ, cbCount, addInc]
              omega
            · intro x hx hr
              rw [h1, h2] at hx
              simp only [List.nil_append] at hx
              exact hrecvq x hx hr
          · constructor
            · rw [h3]
              simp [occS, h1, h2, cbCount, addInc]
            · intro x hx hr
              rw [h1, h2] at hx
              exact hcl x hx hr
          · have hpre : ∀ req ∈ pre, req.rid = rid →
                req.canceled = false ∧ req.has_cb = true := by
              intro req hx hr
              exact hsendq req (by rw [h1]; exact List.mem_append_left _ hx) hr
            constructor
            · rw [h3]
              have hq1 : occQ rid s.sendq = occQ rid pre + occQ rid s2.sendq := by
                rw [h1, occQ_append]
              have hq2 : occQ rid s2.recvq
                  = occQ rid s.recvq + occQ rid pre := by
                rw [h2, occQ_append,
                  occQ_filter_clean rid pre (fun x hx hr => (hpre x hx hr).1)]
              simp only [occS, hq2]
              simp [cbCount, addInc]
              omega
            · intro x hx hr
              simp only [List.mem_append] at hx
              rcases hx with hx | hx
              · exact hsendq x (by rw [h1]; exact List.mem_append_right _ hx) hr
              · rw [h2] at hx
                simp only [List.mem_append] at hx
                rcases hx with hx | hx
                · exact hrecvq x hx hr
                · have := List.mem_of_mem_filter hx
                  exact hsendq x (by rw [h1]; exact List.mem_append_left _ this) hr
    · rw [if_neg hconn] at hstep
      simp only [Option.some.injEq, Prod.mk.injEq] at hstep
      obtain ⟨ha, hb, hd⟩ := hstep
      subst ha hb hd
      exact ⟨by simp [cbCount, addInc], hcl⟩
  | readable chunk =>
    simp only [step] at hstep
    by_cases hconn : s.connected = true
    · rw [if_pos hconn] at hstep
      obtain ⟨k, hk1, hk2⟩ := parse_take
        (parseMeas s.parse_state s.recvq (s.recvbuf ++ chunk) + 1) s.parse_state
        s.recvq (s.recvbuf ++ chunk) (by omega)
      have hframes : ∀ f ∈ (parse_packet s.parse_state s.recvq
          (s.recvbuf ++ chunk)).frames, f.req.rid = rid →
          f.req.canceled = false ∧ f.req.has_cb = true := by
        intro f hf hr
        have hmem : f.req ∈ s.recvq.take k := by
          rw [← hk2]
          exact List.mem_map_of_mem _ hf
        exact hrecvq f.req (List.take_subset k s.recvq hmem) hr
      have hcbf := cbCount_frames rid _ hframes
      rw [hk2] at hcbf
      by_cases herr : (parse_packet s.parse_state s.recvq
          (s.recvbuf ++ chunk)).err = true
      · rw [if_pos herr] at hstep
        simp only [disconnect, Option.some.injEq, Prod.mk.injEq] at hstep
        obtain ⟨ha, hb, hd⟩ := hstep
        subst ha hb hd
        constructor
        · rw [cbCount_append, hcbf, cbCount_append]
          rw [cbCount_clear rid _ (fun x hx hr =>
            (hrecvq x (List.drop_subset k s.recvq (hk1 ▸ hx)) hr).2)]
          rw [cbCount_clear rid s.sendq (fun x hx hr => (hsendq x hx hr).2)]
          rw [hk1]
          have hsplit := occQ_take_drop rid s.recvq k
          simp only [occQ] at hsplit
          simp [occS, ConnState.init, occQ, addInc]
          omega
        · intro x hx _
          simp [ConnState.init] at hx
      · rw [if_neg herr] at hstep
        simp only [Option.some.injEq, Prod.mk.injEq] at hstep
        obtain ⟨ha, hb, hd⟩ := hstep
        subst ha hb hd
        constructor
        · rw [hcbf]
          simp only [occS, hk1]
          have hsplit := occQ_take_drop rid s.recvq k
          simp only [occQ] at hsplit ⊢
          simp [addInc]
          omega
        · intro x hx hr
          simp only [List.mem_append] at hx
          rcases hx with hx | hx
          · exact hsendq x hx hr
          · rw [hk1] at hx
            exact hrecvq x (List.drop_subset k s.recvq hx) hr
    · rw [if_neg hconn] at hstep
      simp only [Option.some.injEq, Prod.mk.injEq] at hstep
      obtain ⟨ha, hb, hd⟩ := hstep
      subst ha hb hd
      exact ⟨by simp [cbCount, addInc], hcl⟩

/-- Whole-trace callback balance for a clean identity. -/
theorem run_balance (rid : Nat) :
    ∀ (evs : List Ev) (s s' : ConnState) (cbs : List CB) (drops : List Nat),
      cleanState rid s → cleanEvs rid evs →
      run s evs = some (s', cbs, drops) →
      occS rid s' + cbCount rid cbs + drops.countP (fun d => d = rid)
        = occS rid s + addCount rid evs := by
  intro evs
  induction evs with
  | nil =>
    intro s s' cbs drops hcl hce hrun
    simp only [run, Option.some.injEq, Prod.mk.injEq] at hrun
    obtain ⟨ha, hb, hd⟩ := hrun
    subst ha hb hd
    simp [addCount, cbCount]
  | cons e evs ihe =>
    intro s s' cbs drops hcl hce hrun
    simp only [run] at hrun
    cases hstep : step s e with
    | none => simp [hstep] at hrun
    | some out1 =>
      obtain ⟨s1, cbs1, drops1⟩ := out1
      simp only [hstep] at hrun
      cases hrun2 : run s1 evs with
      | none => simp [hrun2] at hrun
      | some out2 =>
        obtain ⟨s2, cbs2, drops2⟩ := out2
        simp only [hrun2, Option.some.injEq, Prod.mk.injEq] at hrun
        obtain ⟨ha, hb, hd⟩ := hrun
        subst ha hb hd
        obtain ⟨hbal, hcl1⟩ := step_balance rid s e s1 cbs1 drops1 hcl
          (hce e (by simp)) hstep
        have hrest := ihe s1 s2 cbs2 drops2 hcl1
          (fun x hx => hce x (by simp [hx])) hrun2
        rw [cbCount_append, List.countP_append]
        simp only [addCount, List.map_cons, List.sum_cons] at hrest ⊢
        omega

/-! ### Further staging facts -/

theorem serialized_ge_24 (r : MemcachedRequest) : 24 ≤ serialized_size r := by
  simp only [serialized_size]
  split <;> omega

/-- Every request selected by a staging pass is a non-canceled member of the
queue it was selected from. -/
theorem stagedSel_mem :
    ∀ (q : List MemcachedRequest) (sum : Nat) (r : MemcachedRequest),
      r ∈ stagedSel q sum → r ∈ q ∧ r.canceled = false := by
  intro q
  induction q with
  | nil =>
    intro sum r h
    exact absurd h (by simp [stagedSel])
  | cons a rest ih =>
    intro sum r h
    by_cases hc : a.canceled = true
    · simp only [stagedSel, if_pos hc] at h
      obtain ⟨h1, h2⟩ := ih sum r h
      exact ⟨by simp [h1], h2⟩
    · by_cases hsz : serialized_size a + sum > 1300
      · simp only [stagedSel, if_neg hc, if_pos hsz] at h
        exact absurd h (by simp)
      · simp only [stagedSel, if_neg hc, if_neg hsz] at h
        rcases List.mem_cons.mp h with h | h
        · subst h
          exact ⟨by simp, by simpa using hc⟩
        · obtain ⟨h1, h2⟩ := ih _ r h
          exact ⟨by simp [h1], h2⟩

/-- A staging pass over a fully canceled queue selects nothing. -/
theorem stagedSel_all_canceled :
    ∀ (q : List MemcachedRequest) (sum : Nat),
      (∀ r ∈ q, r.canceled = true) → stagedSel q sum = [] := by
  intro q
  induction q with
  | nil => intro sum _; rfl
  | cons a rest ih =>
    intro sum h
    simp only [stagedSel, if_pos (h a (by simp))]
    exact ih sum fun r hr => h r (by simp [hr])

/-- A staging pass over a fully canceled queue stages nothing. -/
theorem stage_all_canceled :
    ∀ (q : List MemcachedRequest) (bufv : List MemcachedSendbuf) (sum : Nat),
      (∀ r ∈ q, r.canceled = true) → stage q bufv sum = (bufv, sum) := by
  intro q
  induction q with
  | nil => intro bufv sum _; rfl
  | cons a rest ih =>
    intro bufv sum h
    simp only [stage, if_pos (h a (by simp))]
    exact ih bufv sum fun r hr => h r (by simp [hr])

/-- A non-empty staged batch has a positive byte total. -/
theorem stagedSel_sum_pos (q : List MemcachedRequest) (sum : Nat)
    (hops : ∀ r ∈ q, r.op = MEMCACHED_OP_GET ∨ r.op = MEMCACHED_OP_ADD)
    (hne : stagedSel q sum ≠ []) :
    0 < ((stagedSel q sum).map fun r => sendbufLeft (make_request r)).sum := by
  cases hsel : stagedSel q sum with
  | nil => exact absurd hsel hne
  | cons r rest =>
    have hr : r ∈ stagedSel q sum := by rw [hsel]; simp
    obtain ⟨hmem, _⟩ := stagedSel_mem q sum r hr
    have h24 := serialized_ge_24 r
    have hle := serialized_le_sendbufLeft r (hops r hmem)
    simp only [List.map_cons, List.sum_cons]
    omega

/-! ### The claims -/

/-- Claim C9: `disconnect` is idempotent and safe from any state, including
one that never connected: it resets the connection to the constructor's idle
state — both queues empty, pending write batch and byte counter zero, parse
state reset, receive buffer empty, connected flag clear — and calling it
again from that state invokes no further callbacks and leaves the state
unchanged. -/
theorem C9_disconnect_idempotent (s : ConnState) :
    disconnect (disconnect s).1 = ((disconnect s).1, []) ∧
    (disconnect s).1 = ConnState.init ∧
    (disconnect s).1.sendq = [] ∧ (disconnect s).1.recvq = [] ∧
    (disconnect s).1.sendbufv = [] ∧ (disconnect s).1.sendsum = 0 ∧
    (disconnect s).1.parse_state = ParseState.init ∧
    (disconnect s).1.recvbuf = [] ∧ (disconnect s).1.connected = false :=
  ⟨rfl, rfl, rfl, rfl, rfl, rfl, rfl, rfl, rfl⟩

/-- Claim C2, counterexample: a canceled request with a callback still
receives the generic connection-error callback at `disconnect`, because
`clear_request` never consults the canceled flag.  With one request, all of
it canceled, the claim predicts zero callback invocations; the code delivers
one. -/
theorem C2_counterexample :
    reqCanceled.canceled = true ∧ reqCanceled.has_cb = true ∧
    (disconnect ⟨[], [reqCanceled], [], 0, ParseState.init, [], true⟩).2
      = [⟨8, .connError⟩] :=
  ⟨rfl, rfl, rfl⟩

/-- Claim C2, amended: `disconnect` invokes the generic connection-error
callback for every queued request that has a callback — the receive queue
first, then the send queue, each in queue order, and including canceled
requests, whose canceled flag `clear_request` does not consult — and leaves
both queues empty afterward. -/
theorem C2_disconnect_callbacks (s : ConnState) :
    (disconnect s).2
      = ((s.recvq ++ s.sendq).filter (fun r => r.has_cb)).map
          (fun r => ⟨r.rid, .connError⟩) ∧
    (disconnect s).1.recvq = [] ∧ (disconnect s).1.sendq = [] := by
  refine ⟨?_, rfl, rfl⟩
  simp [disconnect, clear_request, List.filter_append]

/-- Claim C3: chunking invariance and checkpointing.  Feeding a byte stream
split into 1..N arbitrary chunks across that many read events produces the
same final parser state, the same dispatched frames in the same order, and
the same error outcome as feeding the whole stream in one read event; and
when the value (or extra) phase has fewer buffered bytes than it needs,
`parse_packet` checkpoints the remaining count (keeping the value bytes
accumulated so far), consumes the buffer and reports no error. -/
theorem C3_chunking_invariance (s : RState) (c : List Byte)
    (cs : List (List Byte)) :
    feedChunks s c cs = feed s ((c :: cs).flatten) ∧
    (∀ (ps : ParseState) (q : List MemcachedRequest) (buf : List Byte),
      ps.state = .value → buf.length < ps.read_left →
      parse_packet ps q buf
        = ⟨{ ps with
             value := ps.value ++ buf
             read_left := ps.read_left - buf.length }, q, [], [], false⟩) ∧
    (∀ (ps : ParseState) (q : List MemcachedRequest) (buf : List Byte),
      ps.state = .extra → buf.length < ps.read_left →
      parse_packet ps q buf
        = ⟨{ ps with read_left := ps.read_left - buf.length },
           q, [], [], false⟩) := by
  refine ⟨feedChunks_flatten cs s c, ?_, ?_⟩
  · intro ps q buf hst hlt
    rw [parse_packet_eq]
    simp only [parseBody, hst]
    rw [show min buf.length ps.read_left = buf.length by omega]
    rw [if_pos (show ps.read_left - buf.length ≠ 0 by omega)]
    rw [List.take_length]
  · intro ps q buf hst hlt
    rw [parse_packet_eq]
    simp only [parseBody, hst]
    rw [show min buf.length ps.read_left = buf.length by omega]
    rw [if_pos (show ps.read_left - buf.length ≠ 0 by omega)]

/-- Witness for C3: a concrete response split in two, and a value-phase
checkpoint on a single buffered byte out of three outstanding ones. -/
theorem C3_chunking_invariance_witness :
    feedChunks ⟨ParseState.init, [reqGET 1 [10]], []⟩ ((respGET1 65).take 10)
        [(respGET1 65).drop 10]
      = feed ⟨ParseState.init, [reqGET 1 [10]], []⟩
          ((((respGET1 65).take 10) :: [(respGET1 65).drop 10]).flatten) ∧
    parse_packet midValuePS [reqGET 1 [10]] [5]
      = ⟨{ midValuePS with
           value := midValuePS.value ++ [5]
           read_left := midValuePS.read_left - 1 },
         [reqGET 1 [10]], [], [], false⟩ :=
  ⟨(C3_chunking_invariance ⟨ParseState.init, [reqGET 1 [10]], []⟩
      ((respGET1 65).take 10) [(respGET1 65).drop 10]).1,
   (C3_chunking_invariance ⟨ParseState.init, [reqGET 1 [10]], []⟩
      ((respGET1 65).take 10) [(respGET1 65).drop 10]).2.1
     midValuePS [reqGET 1 [10]] [5] rfl (by decide)⟩

/-- Claim C6: with a complete 24-byte header buffered, `parse_packet` signals
an unrecoverable error — error return and no frame dispatched, before any
value bytes are accumulated — whenever the magic byte is not the response
magic, the opcode differs from the request at the head of the receive queue,
the key length is nonzero, the total body length exceeds 16 KiB, or the
opcode is GET with a success status and zero extra length. -/
theorem C6_header_validation (ps : ParseState) (req : MemcachedRequest)
    (rest : List MemcachedRequest) (buf : List Byte)
    (hst : ps.state = .header24) (hlen : 24 ≤ buf.length)
    (hbad : buf.getD 0 0 ≠ MEMCACHED_RES_MAGIC ∨
            req.op ≠ buf.getD 1 0 ∨
            get_uint16 buf 2 ≠ 0 ∨
            get_uint32 buf 8 > 16 * 1024 ∨
            (buf.getD 1 0 = MEMCACHED_OP_GET ∧ get_uint16 buf 6 = 0 ∧
              buf.getD 4 0 = 0)) :
    (parse_packet ps (req :: rest) buf).err = true ∧
    (parse_packet ps (req :: rest) buf).frames = [] := by
  have hph : parseHeader ps buf req = none := by
    simp only [parseHeader]
    split_ifs with h1 h2 h3 h4 h5 h6
    · rfl
    · rfl
    · rfl
    · rfl
    · rfl
    · rfl
    · exfalso
      rcases hbad with h | h | h | h | h
      · exact h1 h
      · exact h2 h
      · exact h3 h
      · exact h4 h
      · exact h5 h
  rw [parse_packet_eq]
  simp only [parseBody, hst]
  rw [if_neg (show ¬ buf.length < 24 by omega)]
  rw [hph]
  exact ⟨rfl, rfl⟩

/-- Witness for C6: a header with a wrong magic byte makes the parse fail
with no dispatched frame. -/
theorem C6_header_validation_witness :
    (parse_packet ParseState.init [reqGET 1 [10]] badMagicBuf).err = true ∧
    (parse_packet ParseState.init [reqGET 1 [10]] badMagicBuf).frames = [] :=
  C6_header_validation ParseState.init (reqGET 1 [10]) [] badMagicBuf rfl
    (by decide) (Or.inl (by decide))

/-- Claim C10: the header parser rejects as a fatal error any header whose
total body length is strictly smaller than key length plus extra length; on
every accepted header the inequality `keylen + extralen ≤ totalbody` holds,
so the value-phase remaining-byte counter equals the exact (non-underflowing)
difference `totalbody - keylen - extralen` — stated over ℤ — whenever there
is no extra phase, and the extra length otherwise. -/
theorem C10_no_underflow (ps : ParseState) (req : MemcachedRequest)
    (rest : List MemcachedRequest) (buf : List Byte) :
    (ps.state = .header24 → 24 ≤ buf.length →
      get_uint32 buf 8 < get_uint16 buf 2 + buf.getD 4 0 →
      (parse_packet ps (req :: rest) buf).err = true) ∧
    (∀ ps', parseHeader ps buf req = some ps' →
      ps'.keylen + ps'.extralen ≤ ps'.totalbody ∧
      (ps'.read_left : Int)
        = if ps'.extralen ≠ 0 then (ps'.extralen : Int)
          else (ps'.totalbody : Int) - (ps'.keylen : Int)
              - (ps'.extralen : Int)) := by
  constructor
  · intro hst hlen hlt
    have hph : parseHeader ps buf req = none := by
      simp only [parseHeader]
      split_ifs with h1 h2 h3 h4 h5 <;> rfl
    rw [parse_packet_eq]
    simp only [parseBody, hst]
    rw [if_neg (show ¬ buf.length < 24 by omega)]
    rw [hph]
  · intro ps' hsome
    simp only [parseHeader] at hsome
    split_ifs at hsome with h1 h2 h3 h4 h5 h6 hx
    · have he := Option.some.inj hsome
      subst he
      refine ⟨by dsimp only; omega, ?_⟩
      dsimp only
      rw [if_pos hx]
    · have he := Option.some.inj hsome
      subst he
      refine ⟨by dsimp only; omega, ?_⟩
      dsimp only
      rw [if_neg hx]
      omega

/-- Witness for C10: a header declaring total body 2 with extra length 4 is
rejected, and the header of a well-formed GET response is accepted with an
exact remaining-byte counter. -/
theorem C10_no_underflow_witness :
    (parse_packet ParseState.init [reqGET 1 [10]] shortBodyBuf).err = true ∧
    (afterHeaderPS.keylen + afterHeaderPS.extralen ≤ afterHeaderPS.totalbody ∧
      (afterHeaderPS.read_left : Int)
        = if afterHeaderPS.extralen ≠ 0 then (afterHeaderPS.extralen : Int)
          else (afterHeaderPS.totalbody : Int) - (afterHeaderPS.keylen : Int)
              - (afterHeaderPS.extralen : Int)) :=
  ⟨(C10_no_underflow ParseState.init (reqGET 1 [10]) [] shortBodyBuf).1 rfl
      (by decide) (by decide),
   (C10_no_underflow ParseState.init (reqGET 1 [10]) [] (respGET1 65)).2
      afterHeaderPS (by decide)⟩

/-- Claim C4: strict FIFO service order.  The post-write drain loop moves a
prefix of the send queue — in order, dropping its canceled entries — to the
back of the receive queue; the parser always correlates completed frames
with the oldest receive-queue entries (the dispatched frames are a popped
prefix of the queue, in order, and the remaining queue is the matching
suffix); and concretely, enqueuing requests 1, 2, 3 and delivering their
responses in order dispatches their callbacks as 1, 2, 3 for every chunking
of the response bytes across read events. -/
theorem C4_fifo_order (fuel nwrite : Nat) (bufv : List MemcachedSendbuf)
    (sendq recvq : List MemcachedRequest)
    (out : List MemcachedSendbuf × List MemcachedRequest × List MemcachedRequest)
    (ps : ParseState) (q : List MemcachedRequest) (buf : List Byte) :
    (drainF fuel nwrite bufv sendq recvq = some out →
      ∃ pre, sendq = pre ++ out.2.1 ∧
        out.2.2 = recvq ++ pre.filter (fun r => !r.canceled)) ∧
    (∃ k, (parse_packet ps q buf).recvq = q.drop k ∧
      (parse_packet ps q buf).frames.map (·.req) = q.take k) ∧
    (∀ (c : List Byte) (cs : List (List Byte)),
      (c :: cs).flatten = respGET1 65 ++ respGET1 66 ++ respGET1 67 →
      (feedChunks
          ⟨ParseState.init, [reqGET 1 [10], reqGET 2 [11], reqGET 3 [12]], []⟩
          c cs).2.1.map (fun f => f.req.rid) = [1, 2, 3] ∧
      (feedChunks
          ⟨ParseState.init, [reqGET 1 [10], reqGET 2 [11], reqGET 3 [12]], []⟩
          c cs).2.2 = false) := by
  refine ⟨fun h => drainF_spec fuel nwrite bufv sendq recvq out h,
    parse_take (parseMeas ps q buf + 1) ps q buf (by omega), ?_⟩
  intro c cs hfl
  rw [feedChunks_flatten, hfl]
  exact ⟨by decide, by decide⟩

/-- Witness for C4: a one-request drain consuming exactly the request's
bytes, and the three-request scenario split into two read chunks. -/
theorem C4_fifo_order_witness :
    (∃ pre, [reqGET 1 [10]] = pre ++ ([] : List MemcachedRequest) ∧
      [reqGET 1 [10]]
        = ([] : List MemcachedRequest) ++ pre.filter (fun r => !r.canceled)) ∧
    (feedChunks
        ⟨ParseState.init, [reqGET 1 [10], reqGET 2 [11], reqGET 3 [12]], []⟩
        (respGET1 65) [respGET1 66 ++ respGET1 67]).2.1.map
        (fun f => f.req.rid)
      = [1, 2, 3] :=
  ⟨(C4_fifo_order 2 25 [make_request (reqGET 1 [10])] [reqGET 1 [10]] []
      ([], [], [reqGET 1 [10]]) ParseState.init [] []).1 (by decide),
   ((C4_fifo_order 2 25 [make_request (reqGET 1 [10])] [reqGET 1 [10]] []
      ([], [], [reqGET 1 [10]]) ParseState.init [] []).2.2
      (respGET1 65) [respGET1 66 ++ respGET1 67] (by decide)).1⟩

set_option maxRecDepth 8000 in
/-- Claim C5, counterexample: a single non-canceled request whose serialized
size exceeds the 1300-byte cap is not left for a later batch.  The staging
pass stages nothing, and `send_request` (lines 419-422) then clears the whole
send queue: the request is dropped (ghost drop record rid 7) with no
callback and no bytes written. -/
theorem C5_counterexample :
    reqBig.canceled = false ∧ 1300 < serialized_size reqBig ∧
    send_request bigOnlyState 100
      = some (⟨[], [], [], 0, ParseState.init, [], true⟩, [], [7]) :=
  ⟨rfl, by decide, by decide⟩

/-- Claim C5, amended: the staging pass walks the send queue from the front,
skipping canceled requests, staging while the cap holds (`stage` appends
exactly the serializations of the selected requests `stagedSel`); the
selection is the non-canceled part of a queue prefix and stops at the first
non-canceled request that would push the byte total over 1300; from a zero
byte total the staged serialized sizes sum to at most 1300; and when the
pass stages at least one request nothing is dropped — the send queue either
stays intact (blocked write) or only loses a drained prefix to the receive
queue, in order.  However, when the pass stages nothing (every non-canceled
request is over the cap), the whole send queue is discarded rather than kept
for a later batch — see the counterexample. -/
theorem C5_staging_cap (q : List MemcachedRequest)
    (bufv : List MemcachedSendbuf) (sum : Nat) (s : ConnState) (nw : Nat)
    (s' : ConnState) (w : List Byte) (drops : List Nat) :
    stage q bufv sum
      = (bufv ++ (stagedSel q sum).map make_request,
         sum + ((stagedSel q sum).map
           fun r => sendbufLeft (make_request r)).sum) ∧
    (∃ pre suf, q = pre ++ suf ∧
      stagedSel q sum = pre.filter (fun r => !r.canceled) ∧
      (suf = [] ∨ ∃ r rest2, suf = r :: rest2 ∧ r.canceled = false ∧
        serialized_size r
            + (sum + ((stagedSel q sum).map
                fun x => sendbufLeft (make_request x)).sum)
          > 1300)) ∧
    ((∀ r ∈ q, r.op = MEMCACHED_OP_GET ∨ r.op = MEMCACHED_OP_ADD) →
      stagedSel q 0 = [] ∨ ((stagedSel q 0).map serialized_size).sum ≤ 1300) ∧
    (s.sendsum = 0 →
      (∀ r ∈ s.sendq, r.op = MEMCACHED_OP_GET ∨ r.op = MEMCACHED_OP_ADD) →
      stagedSel s.sendq 0 ≠ [] →
      send_request s nw = some (s', w, drops) →
      drops = [] ∧
        (s'.sendq = s.sendq ∨ ∃ pre, s.sendq = pre ++ s'.sendq ∧
          s'.recvq = s.recvq ++ pre.filter (fun r => !r.canceled))) := by
  refine ⟨stage_eq_stagedSel q bufv sum, stagedSel_prefix q sum, ?_, ?_⟩
  · intro hops
    rcases stagedSel_cap q 0 0 (Nat.le_refl 0) hops with h | h
    · exact Or.inl h
    · exact Or.inr (by omega)
  · intro hsum hops hne hsend
    have hpos := stagedSel_sum_pos s.sendq 0 hops hne
    unfold send_request at hsend
    have hguard : ¬ (s.sendsum = 0 ∧
        (if s.sendsum = 0 then stage s.sendq s.sendbufv s.sendsum
         else (s.sendbufv, s.sendsum)).2 = 0) := by
      rintro ⟨-, hz⟩
      rw [if_pos hsum] at hz
      simp only [stage_eq_stagedSel] at hz
      rw [hsum] at hz
      omega
    rw [if_neg hguard] at hsend
    by_cases hnw : (min nw (buildIov (if s.sendsum = 0
        then stage s.sendq s.sendbufv s.sendsum
        else (s.sendbufv, s.sendsum)).1 0).flatten.length) = 0
    · rw [if_pos hnw] at hsend
      simp only [Option.some.injEq, Prod.mk.injEq] at hsend
      obtain ⟨ha, hw, hd⟩ := hsend
      subst ha hd
      exact ⟨rfl, Or.inl rfl⟩
    · rw [if_neg hnw] at hsend
      cases hdr : drainF (s.sendq.length + 1)
          (min nw (buildIov (if s.sendsum = 0
            then stage s.sendq s.sendbufv s.sendsum
            else (s.sendbufv, s.sendsum)).1 0).flatten.length)
          (if s.sendsum = 0 then stage s.sendq s.sendbufv s.sendsum
           else (s.sendbufv, s.sendsum)).1 s.sendq s.recvq with
      | none => rw [hdr] at hsend; exact absurd hsend (by simp)
      | some out =>
        rw [hdr] at hsend
        obtain ⟨pre, h1, h2⟩ := drainF_spec _ _ _ _ _ _ hdr
        simp only [Option.some.injEq, Prod.mk.injEq] at hsend
        obtain ⟨ha, hw, hd⟩ := hsend
        subst ha hd
        exact ⟨rfl, Or.inr ⟨pre, h1, h2⟩⟩

set_option maxRecDepth 8000 in
/-- Witness for C5: three 500-byte requests are staged as the strict prefix
of the first two, and a blocked write on a staged batch drops nothing. -/
theorem C5_staging_cap_witness :
    stage [reqADD500 1, reqADD500 2, reqADD500 3] [] 0
      = ([] ++ (stagedSel [reqADD500 1, reqADD500 2, reqADD500 3] 0).map
             make_request,
         0 + ((stagedSel [reqADD500 1, reqADD500 2, reqADD500 3] 0).map
           fun r => sendbufLeft (make_request r)).sum) ∧
    (stagedSel [reqADD500 1, reqADD500 2, reqADD500 3] 0 = [] ∨
      ((stagedSel [reqADD500 1, reqADD500 2, reqADD500 3] 0).map
        serialized_size).sum ≤ 1300) ∧
    (([] : List Nat) = [] ∧
      (oneAddStagedState.sendq = oneAddState.sendq ∨
        ∃ pre, oneAddState.sendq = pre ++ oneAddStagedState.sendq ∧
          oneAddStagedState.recvq
            = oneAddState.recvq ++ pre.filter (fun r => !r.canceled))) :=
  ⟨(C5_staging_cap [reqADD500 1, reqADD500 2, reqADD500 3] [] 0 oneAddState 0
      oneAddStagedState [] []).1,
   (C5_staging_cap [reqADD500 1, reqADD500 2, reqADD500 3] [] 0 oneAddState 0
      oneAddStagedState [] []).2.2.1 (by decide),
   (C5_staging_cap [reqADD500 1, reqADD500 2, reqADD500 3] [] 0 oneAddState 0
      oneAddStagedState [] []).2.2.2 rfl (by decide) (by decide) (by decide)⟩

/-- Claim C7, counterexample: a request canceled while still queued does
receive a callback.  Adding a request, canceling it and then hitting the
retry timeout tears the connection down, and `clear_request` — which never
consults the canceled flag — invokes the canceled request's callback with
the connection-error result. -/
theorem C7_counterexample :
    run ConnState.init cancelThenTimeoutEvs
      = some (ConnState.init, [⟨4, .connError⟩], []) := by
  decide

/-- Claim C7, amended: on the scheduler and parser paths canceled requests
are indeed inert: every staged request is a non-canceled member of the send
queue (so a request canceled before staging contributes no socket bytes),
the drain loop drops a canceled front entry without moving it to the receive
queue (every entry it adds to the receive queue is non-canceled), the parser
dispatches frame callbacks only for non-canceled requests with callbacks,
and a write pass over a fully canceled send queue writes nothing and invokes
nothing (it discards the queue).  However, on connection teardown
`clear_request` ignores the canceled flag, so a canceled request that still
has a callback does get a connection-error callback — see the
counterexample. -/
theorem C7_canceled_inert (q : List MemcachedRequest) (sum : Nat)
    (frames : List Frame) (fuel nwrite : Nat) (bufv : List MemcachedSendbuf)
    (sendq recvq : List MemcachedRequest)
    (out : List MemcachedSendbuf × List MemcachedRequest × List MemcachedRequest)
    (s : ConnState) (nw : Nat) :
    (∀ r ∈ stagedSel q sum, r ∈ q ∧ r.canceled = false) ∧
    (drainF fuel nwrite bufv sendq recvq = some out →
      ∀ r ∈ out.2.2, r ∈ recvq ∨ r.canceled = false) ∧
    (∀ c ∈ frameCallbacks frames, ∃ f ∈ frames,
      f.req.canceled = false ∧ f.req.has_cb = true ∧ c.rid = f.req.rid ∧
      c.result = .res f.status_code f.value) ∧
    (s.sendsum = 0 → (∀ r ∈ s.sendq, r.canceled = true) →
      send_request s nw
        = some ({ s with sendq := [], sendbufv := s.sendbufv, sendsum := 0 },
            [], s.sendq.map (·.rid))) := by
  refine ⟨fun r hr => stagedSel_mem q sum r hr, ?_, ?_, ?_⟩
  · intro h r hr
    obtain ⟨pre, h1, h2⟩ := drainF_spec fuel nwrite bufv sendq recvq out h
    rw [h2] at hr
    rcases List.mem_append.mp hr with h | h
    · exact Or.inl h
    · exact Or.inr (by simpa using (List.mem_filter.mp h).2)
  · intro c hc
    simp only [frameCallbacks, List.mem_map] at hc
    obtain ⟨f, hf, hce⟩ := hc
    have hf2 := List.mem_filter.mp hf
    have hflags : f.req.canceled = false ∧ f.req.has_cb = true := by
      have := hf2.2
      simp only [Bool.and_eq_true, Bool.not_eq_true'] at this
      exact this
    refine ⟨f, hf2.1, hflags.1, hflags.2, ?_, ?_⟩
    · rw [← hce]
    · rw [← hce]
  · intro hsum hall
    have hstage := stage_all_canceled s.sendq s.sendbufv s.sendsum hall
    unfold send_request
    rw [if_pos hsum, hstage]
    rw [if_pos ⟨hsum, (show (s.sendbufv, s.sendsum).2 = 0 from hsum)⟩]

set_option maxRecDepth 8000 in
/-- Witness for C7: a staged singleton is non-canceled, a drain past a
canceled front entry moves only the non-canceled follower, and a write pass
over a single canceled request sends nothing and invokes nothing. -/
theorem C7_canceled_inert_witness :
    (reqADD500 1 ∈ [reqADD500 1] ∧ (reqADD500 1).canceled = false) ∧
    (∀ r ∈ [reqGET 9 [4]],
      r ∈ ([] : List MemcachedRequest) ∨ r.canceled = false) ∧
    send_request canceledOnlyState 5
      = some (⟨[], [], [], 0, ParseState.init, [], true⟩, [], [8]) :=
  ⟨(C7_canceled_inert [reqADD500 1] 0 [] 3 25
      [make_request (reqGET 9 [4])] [reqCanceled, reqGET 9 [4]] []
      ([], [], [reqGET 9 [4]]) canceledOnlyState 5).1 (reqADD500 1)
      (by decide),
   (C7_canceled_inert [reqADD500 1] 0 [] 3 25
      [make_request (reqGET 9 [4])] [reqCanceled, reqGET 9 [4]] []
      ([], [], [reqGET 9 [4]]) canceledOnlyState 5).2.1 (by decide),
   (C7_canceled_inert [reqADD500 1] 0 [] 3 25
      [make_request (reqGET 9 [4])] [reqCanceled, reqGET 9 [4]] []
      ([], [], [reqGET 9 [4]]) canceledOnlyState 5).2.2.2 rfl (by decide)⟩

set_option maxRecDepth 8000 in
/-- Claim C8: serialization layout.  For a GET request (key shorter than
2^16) `make_request` publishes a 24-byte header followed by the raw key and
no value bytes: request magic, the opcode, big-endian key length, extra
length 0, zero status/vbucket, big-endian total body length equal to the key
size, zeroed opaque and CAS region; the value is never copied into the
header buffer — only its length is recorded as the value bytes left to send.
For an ADD request (sizes and expiry in 16/32-bit range) the header declares
extra length 8 and total body length 8 + key size + value size, the 8 extra
bytes are four zero flag bytes followed by the big-endian expiry, and the
key follows the 32 published header bytes, again with the value left out of
the buffer. -/
theorem C8_serialization (r : MemcachedRequest) :
    (r.op = MEMCACHED_OP_GET → r.key.length < 65536 →
      (make_request r).headbuf.length = 24 + r.key.length ∧
      (make_request r).headbuf.getD 0 0 = MEMCACHED_REQ_MAGIC ∧
      (make_request r).headbuf.getD 1 0 = r.op ∧
      get_uint16 (make_request r).headbuf 2 = r.key.length ∧
      (make_request r).headbuf.getD 4 0 = 0 ∧
      get_uint16 (make_request r).headbuf 6 = 0 ∧
      get_uint32 (make_request r).headbuf 8 = r.key.length ∧
      (∀ i, 12 ≤ i → i < 24 → (make_request r).headbuf.getD i 0 = 0) ∧
      (make_request r).headbuf.drop 24 = r.key ∧
      (make_request r).value = r.value ∧
      (make_request r).send_value_left = r.value.length) ∧
    (r.op = MEMCACHED_OP_ADD → r.key.length < 65536 →
      8 + r.key.length + r.value.length < 4294967296 →
      r.expiry < 4294967296 →
      (make_request r).headbuf.length = 32 + r.key.length ∧
      (make_request r).headbuf.getD 0 0 = MEMCACHED_REQ_MAGIC ∧
      (make_request r).headbuf.getD 1 0 = r.op ∧
      get_uint16 (make_request r).headbuf 2 = r.key.length ∧
      (make_request r).headbuf.getD 4 0 = 8 ∧
      get_uint16 (make_request r).headbuf 6 = 0 ∧
      get_uint32 (make_request r).headbuf 8
        = 8 + r.key.length + r.value.length ∧
      (∀ i, 12 ≤ i → i < 24 → (make_request r).headbuf.getD i 0 = 0) ∧
      ((make_request r).headbuf.getD 24 0 = 0 ∧
        (make_request r).headbuf.getD 25 0 = 0 ∧
        (make_request r).headbuf.getD 26 0 = 0 ∧
        (make_request r).headbuf.getD 27 0 = 0) ∧
      get_uint32 (make_request r).headbuf 28 = r.expiry ∧
      (make_request r).headbuf.drop 32 = r.key ∧
      (make_request r).value = r.value ∧
      (make_request r).send_value_left = r.value.length) := by
  constructor
  · intro hop hk
    have hhb : (make_request r).headbuf
        = [MEMCACHED_REQ_MAGIC, r.op, r.key.length / 256 % 256,
           r.key.length % 256, 0, 0, 0, 0,
           r.key.length / 16777216 % 256, r.key.length / 65536 % 256,
           r.key.length / 256 % 256, r.key.length % 256,
           0, 0, 0, 0, 0, 0, 0, 0, 0, 0, 0, 0] ++ r.key := by
      simp [make_request, hop, put_uint16be, put_uint32be]
    refine ⟨?_, ?_, ?_, ?_, ?_, ?_, ?_, ?_, ?_, rfl, rfl⟩
    · rw [hhb]
      simp
      omega
    · rw [hhb]; rfl
    · rw [hhb]; rfl
    · rw [hhb]
      show r.key.length / 256 % 256 * 256 + r.key.length % 256 = r.key.length
      omega
    · rw [hhb]; rfl
    · rw [hhb]; rfl
    · rw [hhb]
      show r.key.length / 16777216 % 256 * 16777216
          + r.key.length / 65536 % 256 * 65536
          + r.key.length / 256 % 256 * 256 + r.key.length % 256
        = r.key.length
      omega
    · intro i h1 h2
      rw [hhb]
      interval_cases i <;> rfl
    · rw [hhb]; rfl
  · intro hop hk hv he
    have hhb : (make_request r).headbuf
        = [MEMCACHED_REQ_MAGIC, r.op, r.key.length / 256 % 256,
           r.key.length % 256, 8, 0, 0, 0,
           (8 + r.key.length + r.value.length) / 16777216 % 256,
           (8 + r.key.length + r.value.length) / 65536 % 256,
           (8 + r.key.length + r.value.length) / 256 % 256,
           (8 + r.key.length + r.value.length) % 256,
           0, 0, 0, 0, 0, 0, 0, 0, 0, 0, 0, 0,
           0, 0, 0, 0,
           r.expiry / 16777216 % 256, r.expiry / 65536 % 256,
           r.expiry / 256 % 256, r.expiry % 256] ++ r.key := by
      simp [make_request, hop, MEMCACHED_OP_GET, MEMCACHED_OP_ADD,
        put_uint16be, put_uint32be]
    refine ⟨?_, ?_, ?_, ?_, ?_, ?_, ?_, ?_, ?_, ?_, ?_, rfl, rfl⟩
    · rw [hhb]
      simp
      omega
    · rw [hhb]; rfl
    · rw [hhb]; rfl
    · rw [hhb]
      show r.key.length / 256 % 256 * 256 + r.key.length % 256 = r.key.length
      omega
    · rw [hhb]; rfl
    · rw [hhb]; rfl
    · rw [hhb]
      show (8 + r.key.length + r.value.length) / 16777216 % 256 * 16777216
          + (8 + r.key.length + r.value.length) / 65536 % 256 * 65536
          + (8 + r.key.length + r.value.length) / 256 % 256 * 256
          + (8 + r.key.length + r.value.length) % 256
        = 8 + r.key.length + r.value.length
      omega
    · intro i h1 h2
      rw [hhb]
      interval_cases i <;> rfl
    · rw [hhb]
      exact ⟨rfl, rfl, rfl, rfl⟩
    · rw [hhb]
      show r.expiry / 16777216 % 256 * 16777216 + r.expiry / 65536 % 256 * 65536
          + r.expiry / 256 % 256 * 256 + r.expiry % 256 = r.expiry
      omega
    · rw [hhb]; rfl

set_option maxRecDepth 8000 in
/-- Witness for C8: the declared key length of a concrete GET request and
the declared total body length of a concrete ADD request. -/
theorem C8_serialization_witness :
    get_uint16 (make_request (reqGET 1 [10, 11])).headbuf 2 = 2 ∧
    get_uint32 (make_request (reqADD500 2)).headbuf 8 = 476 :=
  ⟨((C8_serialization (reqGET 1 [10, 11])).1 rfl (by decide)).2.2.2.1,
   ((C8_serialization (reqADD500 2)).2 rfl (by decide) (by decide)
      (by decide)).2.2.2.2.2.2.1⟩

set_option maxRecDepth 8000 in
/-- Claim C1, counterexample: a request that is never canceled can be
silently dropped with zero callback invocations.  The oversize request
`reqBig` is added (non-canceled, with a callback), the connection comes up,
a write pass finds it over the staging cap and clears the whole send queue
without any callback (ghost drop record rid 7), and the subsequent teardown
finds both queues empty — the trace ends with no callback ever delivered for
rid 7. -/
theorem C1_counterexample :
    reqBig.canceled = false ∧ reqBig.has_cb = true ∧
    run ConnState.init bigDropEvs = some (ConnState.init, [], [7]) :=
  ⟨rfl, rfl, by decide⟩

/-- Claim C1, amended: per-identity callback balance.  Over any event
sequence that is clean for an identity (its adds are non-canceled requests
with callbacks and it is never canceled), every added request is accounted
for exactly once: it is still queued, it received exactly one callback, or
it was silently discarded by an empty-batch `sendq_.clear()` (the ghost drop
record).  In particular a request is never called back twice; but the drop
count can be non-zero, so — the correction — a never-canceled request may
end with zero callback invocations (see the counterexample). -/
theorem C1_callback_balance (rid : Nat) (evs : List Ev) (s' : ConnState)
    (cbs : List CB) (drops : List Nat) (hev : cleanEvs rid evs)
    (hrun : run ConnState.init evs = some (s', cbs, drops)) :
    occS rid s' + cbCount rid cbs + drops.countP (fun d => d = rid)
      = addCount rid evs ∧
    (addCount rid evs ≤ 1 → cbCount rid cbs ≤ 1) := by
  have hcl : cleanState rid ConnState.init := by
    intro req hreq
    simp [ConnState.init] at hreq
  have h := run_balance rid evs ConnState.init s' cbs drops hcl hev hrun
  have h0 : occS rid ConnState.init = 0 := by
    simp [occS, occQ, ConnState.init]
  constructor
  · omega
  · intro h1
    omega

set_option maxRecDepth 8000 in
/-- Witness for C1: a full round trip — add, connect, write, read the
response — balances: one add, one callback, nothing queued, nothing
dropped. -/
theorem C1_callback_balance_witness :
    occS 1 ⟨[], [], [], 0, ParseState.init, [], true⟩
        + cbCount 1 [⟨1, .res 0 [65]⟩]
        + List.countP (fun d => d = 1) [] = addCount 1 okRoundTripEvs ∧
    (addCount 1 okRoundTripEvs ≤ 1 → cbCount 1 [⟨1, .res 0 [65]⟩] ≤ 1) :=
  C1_callback_balance 1 okRoundTripEvs
    ⟨[], [], [], 0, ParseState.init, [], true⟩ [⟨1, .res 0 [65]⟩] []
    (by
      intro e he
      simp only [okRoundTripEvs] at he
      fin_cases he
      · exact fun h => ⟨rfl, rfl⟩
      · exact trivial
      · exact trivial
      · exact trivial)
    (by decide)

end Shrpx
